import Mathlib

/-!
# njump: event rendering helpers (`template_types.go`)

A shallow embedding of the methods of `Metadata` and `EnhancedEvent`.

Modelling conventions.

* A Go `string` is a Lean `String` (valid UTF-8 text; event fields come out of
  the JSON decoder, which only produces valid UTF-8).  `len` is the byte length.
* A Go expression that can panic at run time (index or slice out of range) is
  modelled in `Option`: `none` is the panic.
* A Go call returning `(string, error)` is modelled in `Except`; the call sites
  of the source discard the error and keep the string, which is empty on error.
* Functions of the Go standard library, and the tag lookups of `go-nostr`, are
  modelled by their documented behaviour; the identifier codec `nip19` is a
  parameter (`Nip19`); helpers of the repository that live in other files are
  parameters (`Helpers`).
-/

namespace Njump

/-! ## Go strings -/

/-- Go `len(s)` of a string: its length in bytes. -/
def len (s : String) : Nat := s.utf8ByteSize

/-- Characters of a text lying entirely within its first `n` bytes. -/
def takeBytes : Nat → List Char → List Char
  | _, [] => []
  | n, c :: cs => if c.utf8Size ≤ n then c :: takeBytes (n - c.utf8Size) cs else []

/-- Characters of a text starting at byte offset `n`. -/
def dropBytes : Nat → List Char → List Char
  | _, [] => []
  | 0, cs => cs
  | n + 1, c :: cs => dropBytes (n + 1 - c.utf8Size) cs

/-- Go `s[:n]`: panics when `n > len(s)`. -/
def sliceTo (s : String) (n : Int) : Option String :=
  if 0 ≤ n ∧ n ≤ (len s : Int) then some ⟨takeBytes n.toNat s.data⟩ else none

/-- Go `s[n:]`: panics when `n < 0` or `n > len(s)`. -/
def sliceFrom (s : String) (n : Int) : Option String :=
  if 0 ≤ n ∧ n ≤ (len s : Int) then some ⟨dropBytes n.toNat s.data⟩ else none

/-- Go `strings.HasPrefix`. -/
def HasPrefix (s pre : String) : Bool := pre.data.isPrefixOf s.data

/-- Splitting a text at every occurrence of a separator character; the result
always has at least one piece. -/
def splitChars (sep : Char) : List Char → List (List Char)
  | [] => [[]]
  | c :: cs =>
    if c = sep then [] :: splitChars sep cs
    else
      match splitChars sep cs with
      | [] => [[c]]
      | piece :: rest => (c :: piece) :: rest

/-- Go `strings.Split(s, sep)` for a one-character separator (the source only
splits on ":" and on "\n"). -/
def Split (s : String) (sep : Char) : List String :=
  (splitChars sep s.data).map String.mk

/-- Go `strings.Join`. -/
def Join (parts : List String) (sep : String) : String :=
  ⟨List.intercalate sep.data (parts.map String.data)⟩

/-! ## `strconv.Atoi` -/

/-- Outcome of `strconv.ParseUint`. -/
inductive UintResult where
  | ok (n : Nat)
  | syntaxError
  | rangeError
  deriving DecidableEq, Repr

/-- The digit loop of `strconv.ParseUint(s, 10, 64)`: a non-digit is a syntax
error, an overflow of 64 bits is a range error reported at once. -/
def parseUintLoop : List Char → Nat → UintResult
  | [], n => .ok n
  | c :: cs, n =>
    if '0' ≤ c ∧ c ≤ '9' then
      if n ≥ (2 ^ 64 - 1) / 10 + 1 then .rangeError
      else
        let n1 := n * 10 + (c.toNat - '0'.toNat)
        if n1 > 2 ^ 64 - 1 then .rangeError else parseUintLoop cs n1
    else .syntaxError

/-- Go `strconv.Atoi` on a 64-bit platform, keeping only the integer (every
caller in the source discards the error): `0` on a syntax error, the nearest
bound of `int64` on a range error. -/
def Atoi (s : String) : Int :=
  let signed : Bool × List Char :=
    match s.data with
    | '-' :: r => (true, r)
    | '+' :: r => (false, r)
    | r => (false, r)
  if signed.2 = [] then 0
  else
    match parseUintLoop signed.2 0 with
    | .syntaxError => 0
    | .rangeError => if signed.1 then -(2 ^ 63 : Int) else (2 ^ 63 - 1 : Int)
    | .ok un =>
      if signed.1 then (if un > 2 ^ 63 then -(2 ^ 63 : Int) else -(un : Int))
      else (if un ≥ 2 ^ 63 then (2 ^ 63 - 1 : Int) else (un : Int))

/-- The value of a decimal numeral read from the left, starting from `acc`. -/
def decFold (acc : Nat) (l : List Char) : Nat :=
  l.foldl (fun a c => a * 10 + (c.toNat - '0'.toNat)) acc

/-! ## Events and tags (`go-nostr`) -/

/-- A tag: `nostr.Tag`, a sequence of strings. -/
abbrev Tag := List String

/-- The tags of an event: `nostr.Tags`. -/
abbrev Tags := List Tag

/-- The event record `nostr.Event`. -/
structure Event where
  ID : String
  PubKey : String
  CreatedAt : Int
  Kind : Int
  Tags : Tags
  Content : String
  Sig : String
  deriving Repr

/-- The adapter `EnhancedEvent`: an event and its known relay hints. -/
structure EnhancedEvent where
  Event : Event
  relays : List String
  deriving Repr

/-- The record `sdk.ProfileMetadata`, as far as the source reads it. -/
structure ProfileMetadata where
  PubKey : String
  Name : String
  deriving Repr

/-- The profile adapter `Metadata`, which embeds `sdk.ProfileMetadata`. -/
structure Metadata where
  ProfileMetadata : ProfileMetadata
  deriving Repr

/-- The adapter `Kind30311Metadata`: of the embedded `nip53.LiveEvent` the source
reads the title; `Host` is a pointer that may be nil. -/
structure Kind30311Metadata where
  Title : String
  Host : Option ProfileMetadata
  deriving Repr

/-- The method `Tag.StartsWith`: the leading elements are compared for equality,
the last one of the prefix only has to be a prefix.  The source always passes a
two-element prefix. -/
def StartsWith : Tag → List String → Bool
  | _, [] => true
  | [], _ :: _ => false
  | t :: _, [p] => HasPrefix t p
  | t :: ts, p :: ps => t == p && StartsWith ts ps

/-- The method `Tags.GetFirst`. -/
def GetFirst (tags : Tags) (tagPrefix : List String) : Option Tag :=
  tags.find? (fun v => StartsWith v tagPrefix)

/-- The method `Tags.GetLast`. -/
def GetLast (tags : Tags) (tagPrefix : List String) : Option Tag :=
  tags.reverse.find? (fun v => StartsWith v tagPrefix)

/-- An e-tag carrying the marker "reply" at position 3. -/
def isReplyMarked (tag : Tag) : Bool :=
  decide (tag.length ≥ 4) && tag[0]? == some "e" && tag[3]? == some "reply"

/-- Modelled from the spec: `nip10.GetImmediateReply` belongs to the go-nostr
library, whose code is not part of the sources; the spec describes it as "a
marked reply e-tag, else legacy positional fallback to the last e-tag". -/
def GetImmediateReply (tags : Tags) : Option Tag :=
  match tags.reverse.find? isReplyMarked with
  | some tag => some tag
  | none => GetLast tags ["e", ""]

/-! ## The identifier codec (`nip19`) -/

/-- Text made of ASCII characters only. -/
def IsAscii (s : String) : Prop := ∀ c ∈ s.data, c.toNat < 128

/-- The functions of the `nip19` package used by the source.  They are bech32
encoders: a successful result is ASCII text. Argument order as in the library:
`EncodeEvent id relays author` and `EncodeEntity publicKey kind identifier relays`. -/
structure Nip19 where
  EncodePublicKey : String → Except String String
  EncodeEvent : String → List String → String → Except String String
  EncodeEntity : String → Int → String → List String → Except String String
  EncodePublicKey_ascii : ∀ pk s, EncodePublicKey pk = .ok s → IsAscii s
  EncodeEvent_ascii : ∀ id rs au s, EncodeEvent id rs au = .ok s → IsAscii s
  EncodeEntity_ascii : ∀ pk k d rs s, EncodeEntity pk k d rs = .ok s → IsAscii s

/-- Go `v, _ := f(...)` for a call returning `(string, error)`: the string is
kept, and it is empty when the call failed. -/
def dropErr : Except String String → String
  | .ok s => s
  | .error _ => ""

/-! ## More of the Go standard library -/

/-- What `html.EscapeString` writes for one character: `&`, the apostrophe,
`<`, `>` and the double quote are replaced by entities. -/
def escapeChar (c : Char) : List Char :=
  if c = '&' then "&amp;".data
  else if c = '\x27' then "&#39;".data
  else if c = '<' then "&lt;".data
  else if c = '>' then "&gt;".data
  else if c = '"' then "&#34;".data
  else [c]

/-- Go `html.EscapeString`. -/
def EscapeString (s : String) : String := ⟨s.data.flatMap escapeChar⟩

/-- Go `unicode.IsSpace`. -/
def isSpace (c : Char) : Bool :=
  let n := c.toNat
  (9 ≤ n && n ≤ 13) || n = 0x20 || n = 0x85 || n = 0xA0 || n = 0x1680
    || (0x2000 ≤ n && n ≤ 0x200A) || n = 0x2028 || n = 0x2029 || n = 0x202F
    || n = 0x205F || n = 0x3000

/-- Go `strings.TrimSpace`. -/
def TrimSpace (s : String) : String :=
  ⟨((s.data.dropWhile isSpace).reverse.dropWhile isSpace).reverse⟩

/-- The scan of `strings.Fields`: `cur` holds the characters of the word being
read, last one first. -/
def fieldsGo : List Char → List Char → List (List Char)
  | cur, [] => if cur = [] then [] else [cur.reverse]
  | cur, c :: cs =>
    if isSpace c then
      (if cur = [] then fieldsGo [] cs else cur.reverse :: fieldsGo [] cs)
    else fieldsGo (c :: cur) cs

/-- Go `strings.Fields`: the maximal runs of non-space characters. -/
def Fields (s : String) : List String := (fieldsGo [] s.data).map String.mk

/-! ## Regular expressions (`regexp`)

Go's `regexp` returns, among the matches starting leftmost, the one a
backtracking search finds first.  The two patterns of the source only repeat
single characters, so repetition is restricted to character classes. -/

/-- Regular expressions, as far as the patterns of the source need them. -/
inductive Re where
  | chr (c : Char)
  | cls (p : Char → Bool)
  | seq (a b : Re)
  | alt (a b : Re)
  | opt (a : Re)
  | star (p : Char → Bool)

/-- Greedy repetition of a character class followed by the continuation `k`:
the longest run is tried first. -/
def starRun (p : Char → Bool) : List Char → (List Char → Option (List Char)) → Option (List Char)
  | [], k => k []
  | c :: cs, k =>
    if p c then
      match starRun p cs k with
      | some rest => some rest
      | none => k (c :: cs)
    else k (c :: cs)

/-- Backtracking match of `r` at the start of the input, then `k` on what is
left; the result is the input left after the whole match. -/
def Re.run : Re → List Char → (List Char → Option (List Char)) → Option (List Char)
  | .chr c, s, k =>
    match s with
    | x :: xs => if x = c then k xs else none
    | [] => none
  | .cls p, s, k =>
    match s with
    | x :: xs => if p x then k xs else none
    | [] => none
  | .seq a b, s, k => a.run s (fun rest => b.run rest k)
  | .alt a b, s, k =>
    match a.run s k with
    | some rest => some rest
    | none => b.run s k
  | .opt a, s, k =>
    match a.run s k with
    | some rest => some rest
    | none => k s
  | .star p, s, k => starRun p s k

/-- The literal text `s` as a regular expression (`s` non-empty). -/
def Re.lit : List Char → Re
  | [] => .opt (.cls fun _ => false)
  | [c] => .chr c
  | c :: cs => .seq (.chr c) (Re.lit cs)

/-- The text matched by `r` at the start of the input, if any. -/
def Re.matchAt (r : Re) (s : List Char) : Option (List Char) :=
  match r.run s some with
  | some rest => some (s.take (s.length - rest.length))
  | none => none

/-- The leftmost match of `r` in the input. -/
def Re.find (r : Re) : List Char → Option (List Char)
  | [] => r.matchAt []
  | c :: cs =>
    match r.matchAt (c :: cs) with
    | some m => some m
    | none => Re.find r cs

/-- Go `ReplaceAllString` for a pattern that never matches the empty text and a
replacement without `$`: `skip` counts the characters of the current match
still to be dropped. -/
def Re.replaceGo (r : Re) (repl : List Char) : Nat → List Char → List Char
  | _, [] => []
  | skip + 1, _ :: cs => Re.replaceGo r repl skip cs
  | 0, c :: cs =>
    match r.matchAt (c :: cs) with
    | some m => if m.length = 0 then c :: Re.replaceGo r repl 0 cs
                else repl ++ Re.replaceGo r repl (m.length - 1) cs
    | none => c :: Re.replaceGo r repl 0 cs

/-- The class `\s` of Go regular expressions: `[\t\n\f\r ]`. -/
def reSpace (c : Char) : Bool := c = '\t' || c = '\n' || c = '\x0c' || c = '\r' || c = ' '

/-- The class `[^\s]`. -/
def reNonSpace (c : Char) : Bool := !reSpace c

/-- A letter under the flag `(?i)`: either case matches. -/
def Re.anyCase (lower upper : Char) : Re := .cls fun c => c = lower || c = upper

/-- The pattern `(?i)<br\s?/?>` of `RssTitle`. -/
def brRegex : Re :=
  .seq (.chr '<') (.seq (Re.anyCase 'b' 'B') (.seq (Re.anyCase 'r' 'R')
    (.seq (.opt (.cls reSpace)) (.seq (.opt (.chr '/')) (.chr '>')))))

/-- The alternation `(?:png|jpe?g|gif|bmp|svg)`. -/
def imgExtension : Re :=
  .alt (Re.lit "png".data)
    (.alt (.seq (Re.lit "jp".data) (.seq (.opt (.chr 'e')) (.chr 'g')))
      (.alt (Re.lit "gif".data) (.alt (Re.lit "bmp".data) (Re.lit "svg".data))))

/-- The end `\.(?:png|jpe?g|gif|bmp|svg)(?:/[^\s]*)?` of the image pattern. -/
def imgSuffix : Re :=
  .seq (.chr '.') (.seq imgExtension (.opt (.seq (.chr '/') (.star reNonSpace))))

/-- The pattern `(https?://[^\s]+\.(?:png|jpe?g|gif|bmp|svg)(?:/[^\s]*)?)` of
`Thumb`; its only capture group is the whole pattern. -/
def imgRegex : Re :=
  .seq (Re.lit "http".data) (.seq (.opt (.chr 's')) (.seq (Re.lit "://".data)
    (.seq (.cls reNonSpace) (.seq (.star reNonSpace) imgSuffix))))

/-! ## Edit distance (`golang-levenshtein`) -/

/-- One row of the edit matrix of `levenshtein.DistanceForStrings` under
`DefaultOptions` (insertion 1, deletion 1, substitution 2): `prev` is the
previous row from column `j-1` on, `left` the cell just computed. -/
def nextRow (sc : Char) : List Char → List Nat → Nat → List Nat
  | t :: ts, diag :: up :: prev, left =>
    let delCost := up + 1
    let matchSubCost := if sc = t then diag else diag + 2
    let insCost := left + 1
    let cell := min delCost (min matchSubCost insCost)
    cell :: nextRow sc ts (up :: prev) cell
  | _, _, _ => []

/-- The rows of the edit matrix, one per source character; `i` is the index of
the row being computed. -/
def distanceRows : List Char → List Char → Nat → List Nat → List Nat
  | [], _, _, prev => prev
  | sc :: source, target, i, prev =>
    distanceRows source target (i + 1) (i :: nextRow sc target prev i)

/-- The function `levenshtein.DistanceForStrings(source, target, DefaultOptions)`. -/
def DistanceForStrings (source target : List Char) : Nat :=
  ((distanceRows source target 1 (List.range (target.length + 1))).getLast?).getD 0

/-! ## Helpers of the repository defined in other files -/

/-- The functions of the repository that the source calls and that live in
other files; `renderQuotesAsHTML` is taken without its context argument. -/
structure Helpers where
  shortenNostrURLs : String → String
  basicFormatting : String → Bool → Bool → Bool → String
  renderQuotesAsHTML : String → Bool → String

/-! ## `template_types.go` -/

/-- The short display form `s[:8] + "…" + s[len(s)-4:]`, written out three
times in the source. -/
def shortForm (s : String) : Option String := do
  let head ← sliceTo s 8
  let tail ← sliceFrom s ((len s : Int) - 4)
  pure (head ++ "…" ++ tail)

/-- The method `Metadata.Npub`. -/
def Metadata.Npub (lib : Nip19) (m : Metadata) : String :=
  dropErr (lib.EncodePublicKey m.ProfileMetadata.PubKey)

/-- The method `Metadata.NpubShort`. -/
def Metadata.NpubShort (lib : Nip19) (m : Metadata) : Option String :=
  shortForm (m.Npub lib)

/-- The relay hint of a tag: position 2 when present and non-empty. -/
def relayHint (tag : Tag) : List String :=
  match tag[2]? with
  | some r => if tag.length > 2 ∧ r ≠ "" then [r] else []
  | none => []

/-- The method `EnhancedEvent.getParentNevent`. -/
def EnhancedEvent.getParentNevent (lib : Nip19) (ee : EnhancedEvent) : Option String :=
  if ee.Event.Kind = 1 ∨ ee.Event.Kind = 1063 then
    match GetImmediateReply ee.Event.Tags with
    | some replyTag => do
      let relays := relayHint replyTag
      let id ← replyTag[1]?
      pure (dropErr (lib.EncodeEvent id relays ""))
    | none => some ""
  else if ee.Event.Kind = 1311 then
    match GetFirst ee.Event.Tags ["a", ""] with
    | some atag => do
      let value ← atag[1]?
      let parts := Split value ':'
      let part0 ← parts[0]?
      let kind := Atoi part0
      let relays := relayHint atag
      let part1 ← parts[1]?
      let part2 ← parts[2]?
      pure (dropErr (lib.EncodeEntity part1 kind part2 relays))
    | none => some ""
  else some ""

/-- The method `EnhancedEvent.isReply`. -/
def EnhancedEvent.isReply (ee : EnhancedEvent) : Bool :=
  (GetImmediateReply ee.Event.Tags).isSome

/-- The method `EnhancedEvent.Npub`. -/
def EnhancedEvent.Npub (lib : Nip19) (ee : EnhancedEvent) : String :=
  dropErr (lib.EncodePublicKey ee.Event.PubKey)

/-- The method `EnhancedEvent.NpubShort`. -/
def EnhancedEvent.NpubShort (lib : Nip19) (ee : EnhancedEvent) : Option String :=
  shortForm (ee.Npub lib)

/-- The method `EnhancedEvent.Nevent`. -/
def EnhancedEvent.Nevent (lib : Nip19) (ee : EnhancedEvent) : String :=
  dropErr (lib.EncodeEvent ee.Event.ID ee.relays ee.Event.PubKey)

/-- The loop of `EnhancedEvent.Preview` over the lines. -/
def previewLines (shorten : String → String) : List String → List String → List String
  | [], processedLines => processedLines
  | line :: lines, processedLines =>
    if TrimSpace line = "" then previewLines shorten lines processedLines
    else previewLines shorten lines (processedLines ++ [shorten line])

/-- The method `EnhancedEvent.Preview`. -/
def EnhancedEvent.Preview (h : Helpers) (ee : EnhancedEvent) : String :=
  let lines := Split (EscapeString ee.Event.Content) '\n'
  Join (previewLines h.shortenNostrURLs lines []) "<br/>"

/-- The loop of `EnhancedEvent.RssTitle` over the words: `i` is the index of
the current word. -/
def titleLoop : Nat → List String → String → String
  | _, [], title => title
  | i, word :: words, title =>
    if len title + len word + 1 ≤ 65 then
      titleLoop (i + 1) words ((if title ≠ "" then title ++ " " else title) ++ word)
    else if i > 1 then title ++ " ..."
    else ""

/-- The words of `EnhancedEvent.RssTitle`: the fields of the preview after the
line-break markers have been replaced by spaces. -/
def EnhancedEvent.titleWords (h : Helpers) (ee : EnhancedEvent) : List String :=
  Fields ⟨Re.replaceGo brRegex " ".data 0 (ee.Preview h).data⟩

/-- The text `replacedString` of `EnhancedEvent.RssTitle`: the preview with the
line-break markers replaced by spaces. -/
def EnhancedEvent.titleText (h : Helpers) (ee : EnhancedEvent) : String :=
  ⟨Re.replaceGo brRegex " ".data 0 (ee.Preview h).data⟩

/-- The candidate title of `EnhancedEvent.RssTitle`: the value of `title`
after the loop. -/
def EnhancedEvent.candidateTitle (h : Helpers) (ee : EnhancedEvent) : String :=
  let replacedString : String := ⟨Re.replaceGo brRegex " ".data 0 (ee.Preview h).data⟩
  titleLoop 0 (Fields replacedString) ""

/-- The method `EnhancedEvent.RssContent`. -/
def EnhancedEvent.RssContent (lib : Nip19) (h : Helpers) (ee : EnhancedEvent) : Option String := do
  let content := h.renderQuotesAsHTML (h.basicFormatting (EscapeString ee.Event.Content) true false false) false
  let nevent ← ee.getParentNevent lib
  if nevent ≠ "" then
    let neventShort ← shortForm nevent
    pure ("In reply to <a href=\x27/" ++ nevent ++ "\x27>" ++ neventShort
      ++ "</a><br/>_________________________<br/><br/>" ++ content)
  else pure content

/-- The method `EnhancedEvent.RssTitle`. -/
def EnhancedEvent.RssTitle (lib : Nip19) (h : Helpers) (ee : EnhancedEvent) : Option String := do
  let title := ee.candidateTitle h
  let content ← ee.RssContent lib h
  let distance := DistanceForStrings title.data content.data
  let similarityThreshold := 5
  if distance ≤ similarityThreshold then pure "" else pure title

/-- The method `Kind30311Metadata.title`. -/
def Kind30311Metadata.title (le : Kind30311Metadata) : String :=
  match le.Host with
  | some host => le.Title ++ " by " ++ host.Name
  | none => le.Title

/-- The method `EnhancedEvent.Thumb`: the first match of the image pattern, or
the empty string. -/
def EnhancedEvent.Thumb (ee : EnhancedEvent) : String :=
  match Re.find imgRegex ee.Event.Content.data with
  | some m => ⟨m⟩
  | none => ""

/-! ## A sample codec for concrete evaluations -/

/-- Hexadecimal digit. -/
def isHexChar (c : Char) : Bool :=
  let n := c.toNat
  (48 ≤ n && n ≤ 57) || (97 ≤ n && n ≤ 102) || (65 ≤ n && n ≤ 70)

/-- Text accepted by Go `hex.DecodeString` that decodes to `bytes` bytes. -/
def isHexOf (bytes : Nat) (s : String) : Bool :=
  s.data.all isHexChar && s.data.length = 2 * bytes

/-- The sample encoding of a 32-byte hexadecimal payload under a prefix. -/
def sampleEncode (hrp payload : String) : Except String String :=
  if isHexOf 32 payload then .ok (hrp ++ payload) else .error "invalid hex"

/-- A small stand-in for the `nip19` encoders, used where a statement is
evaluated on a concrete input: like the library it rejects an id or key that
is not 32 bytes of hexadecimal, but its output is not bech32. -/
def sampleNip19 : Nip19 := by
  refine
    { EncodePublicKey := fun pk => sampleEncode "npub1" pk
      EncodeEvent := fun id _ _ => sampleEncode "nevent1" id
      EncodeEntity := fun pk _ _ _ => sampleEncode "naddr1" pk
      EncodePublicKey_ascii := ?_
      EncodeEvent_ascii := ?_
      EncodeEntity_ascii := ?_ } <;>
  · intros
    rename_i s h
    simp only [sampleEncode] at h
    split at h
    · rename_i hhex
      cases h
      intro c hc
      rw [String.data_append, List.mem_append] at hc
      rcases hc with hc | hc
      · revert c; decide
      · simp only [isHexOf, Bool.and_eq_true, List.all_eq_true] at hhex
        have := hhex.1 c hc
        simp only [isHexChar, Bool.or_eq_true, Bool.and_eq_true, decide_eq_true_eq] at this
        omega
    · cases h

/-- An event with the given kind and tags and nothing else. -/
def eventOf (kind : Int) (tags : Tags) : EnhancedEvent :=
  ⟨⟨"", "", 0, kind, tags, "", ""⟩, []⟩

/-- The helpers that leave every text unchanged. -/
def idHelpers : Helpers := ⟨fun s => s, fun s _ _ _ => s, fun s _ => s⟩

/-- An event of kind 1 without tags and with the given content. -/
def noteOf (content : String) : EnhancedEvent :=
  ⟨⟨"", "", 0, 1, [], content, ""⟩, []⟩

/-- The expression consumes no character of the class `\s`. -/
def Re.NonSpace : Re → Prop
  | .chr c => reSpace c = false
  | .cls p => ∀ c, p c = true → reSpace c = false
  | .seq a b => a.NonSpace ∧ b.NonSpace
  | .alt a b => a.NonSpace ∧ b.NonSpace
  | .opt a => a.NonSpace
  | .star p => ∀ c, p c = true → reSpace c = false

/-- The texts a regular expression matches. -/
def Re.Matches : Re → List Char → Prop
  | .chr c, m => m = [c]
  | .cls p, m => ∃ x, m = [x] ∧ p x = true
  | .seq a b, m => ∃ m1 m2, m = m1 ++ m2 ∧ a.Matches m1 ∧ b.Matches m2
  | .alt a b, m => a.Matches m ∨ b.Matches m
  | .opt a, m => m = [] ∨ a.Matches m
  | .star p, m => ∀ x ∈ m, p x = true

/-- The longest leading run of `words` whose join by single spaces takes at
most `budget` bytes: the wording of the specification for the candidate title,
to be compared with the loop of `RssTitle`. -/
def specLongestRun (budget : Nat) (words : List String) : List String :=
  match (List.range (words.length + 1)).reverse.find?
      (fun k => decide (len (Join (words.take k) " ") ≤ budget)) with
  | some k => words.take k
  | none => []

/-- A piece of a content: plain text, or a reference to another event. -/
inductive Piece where
  | text (s : String)
  | quote (pointer : String)

/-- Modelled from the spec: the collaborators of quote embedding, which
`renderQuotesAsHTML` (defined in another file of the repository) relies on:
the detection of embedded event references, the lookup capability
`EventSource.lookup(pointer) -> Event or absent`, the plain fallback link, the
block-quoted short rendition of a referenced event, and the configured
recursion depth (the spec suggests 3). -/
structure QuoteSource where
  pieces : String → List Piece
  lookup : String → Option Event
  fallbackLink : String → String
  blockquote : String → String
  maxDepth : Nat

/-- Modelled from the spec: quote embedding with the mandatory recursion bound;
`renderQuotesAsHTML` itself is not part of the sources.  A reference is
replaced by the block-quoted rendition of the event it resolves to, rendered
one level deeper; a lookup miss and a reached depth limit both give the plain
fallback link. -/
def renderQuotesBounded (src : QuoteSource) : Nat → String → String
  | 0, content =>
    String.join ((src.pieces content).map fun piece =>
      match piece with
      | .text s => s
      | .quote p => src.fallbackLink p)
  | depth + 1, content =>
    String.join ((src.pieces content).map fun piece =>
      match piece with
      | .text s => s
      | .quote p =>
        match src.lookup p with
        | none => src.fallbackLink p
        | some ev => src.blockquote (renderQuotesBounded src depth ev.Content))

/-- The helpers with `renderQuotesAsHTML` given by the bounded quote embedding. -/
def withBoundedQuotes (src : QuoteSource) (h : Helpers) : Helpers :=
  { shortenNostrURLs := h.shortenNostrURLs
    basicFormatting := h.basicFormatting
    renderQuotesAsHTML := fun content _ => renderQuotesBounded src src.maxDepth content }

/-- A source whose only event quotes itself. -/
def selfQuoting : QuoteSource :=
  { pieces := fun content => if content = "nostr:nevent1self" then [.quote "nevent1self"]
      else [.text content]
    lookup := fun p => if p = "nevent1self"
      then some ⟨"", "", 0, 1, [], "nostr:nevent1self", ""⟩ else none
    fallbackLink := fun p => "<a href=\x27/" ++ p ++ "\x27>" ++ p ++ "</a>"
    blockquote := fun s => "<blockquote>" ++ s ++ "</blockquote>"
    maxDepth := 3 }

/-! # Theorems -/

/-! ## Strings, numerals and tags -/

theorem digitChar_spec (m : Nat) (h : m < 10) :
    ('0' ≤ Nat.digitChar m ∧ Nat.digitChar m ≤ '9') ∧ (Nat.digitChar m).toNat - '0'.toNat = m
      ∧ Nat.digitChar m ≠ ':' ∧ Nat.digitChar m ≠ '-' ∧ Nat.digitChar m ≠ '+' := by
  interval_cases m <;> decide

theorem toDigitsCore_acc (fuel n : Nat) (ds : List Char) :
    Nat.toDigitsCore 10 fuel n ds = Nat.toDigitsCore 10 fuel n [] ++ ds := by
  induction fuel generalizing n ds with
  | zero => simp [Nat.toDigitsCore]
  | succ f ih =>
    simp only [Nat.toDigitsCore]
    split
    · simp
    · rw [ih (n / 10) (_ :: ds), ih (n / 10) [_]]; simp

theorem decFold_append (acc : Nat) (l : List Char) (c : Char) :
    decFold acc (l ++ [c]) = decFold acc l * 10 + (c.toNat - '0'.toNat) := by
  simp [decFold, List.foldl_append]

theorem toDigitsCore_spec (fuel : Nat) : ∀ n, n < fuel →
    decFold 0 (Nat.toDigitsCore 10 fuel n []) = n ∧
    (∀ c ∈ Nat.toDigitsCore 10 fuel n [], ('0' ≤ c ∧ c ≤ '9') ∧ c ≠ ':' ∧ c ≠ '-' ∧ c ≠ '+') ∧
    Nat.toDigitsCore 10 fuel n [] ≠ [] := by
  induction fuel with
  | zero => intro n h; omega
  | succ f ih =>
    intro n h
    have hd := digitChar_spec (n % 10) (Nat.mod_lt _ (by decide))
    simp only [Nat.toDigitsCore]
    split
    · rename_i h0
      have : n % 10 = n := by omega
      refine ⟨?_, ?_, by simp⟩
      · have e := hd.2.1
        rw [this] at e ⊢
        simpa [decFold] using e
      · intro c hc
        simp at hc
        subst hc
        exact ⟨hd.1, hd.2.2⟩
    · rename_i h0
      have hlt : n / 10 < f := by omega
      obtain ⟨h1, h2, _⟩ := ih (n / 10) hlt
      rw [toDigitsCore_acc]
      refine ⟨?_, ?_, by simp⟩
      · rw [decFold_append, h1, hd.2.1]; omega
      · intro c hc
        rw [List.mem_append] at hc
        rcases hc with hc | hc
        · exact h2 c hc
        · simp at hc; subst hc; exact ⟨hd.1, hd.2.2⟩

theorem decFold_mono (l : List Char) (acc : Nat) : acc ≤ decFold acc l := by
  induction l generalizing acc with
  | nil => simp [decFold]
  | cons c cs ih =>
    have := ih (acc * 10 + (c.toNat - '0'.toNat))
    simp only [decFold, List.foldl_cons] at this ⊢
    omega

theorem parseUintLoop_ok (l : List Char) (acc : Nat)
    (hdig : ∀ c ∈ l, '0' ≤ c ∧ c ≤ '9') (hfit : decFold acc l ≤ 2 ^ 64 - 1) :
    parseUintLoop l acc = .ok (decFold acc l) := by
  induction l generalizing acc with
  | nil => simp [parseUintLoop, decFold]
  | cons c cs ih =>
    have hc := hdig c (by simp)
    have hmono := decFold_mono cs (acc * 10 + (c.toNat - '0'.toNat))
    have hfit2 : decFold (acc * 10 + (c.toNat - '0'.toNat)) cs ≤ 2 ^ 64 - 1 := by
      simpa [decFold] using hfit
    have hstep := ih (acc * 10 + (c.toNat - '0'.toNat)) (fun d hd => hdig d (by simp [hd])) hfit2
    simp only [parseUintLoop, hc, and_self, if_true]
    rw [if_neg (by omega), if_neg (by omega)]
    rw [hstep]
    simp [decFold]

theorem Atoi_toString (K : Nat) (hK : K < 2 ^ 63) : Atoi (toString K) = (K : Int) := by
  have hdata : (toString K).data = Nat.toDigitsCore 10 (K + 1) K [] := rfl
  obtain ⟨hval, hdig, hne⟩ := toDigitsCore_spec (K + 1) K (by omega)
  have hloop := parseUintLoop_ok _ 0 (fun c hc => (hdig c hc).1) (by rw [hval]; omega)
  rw [hval] at hloop
  unfold Atoi
  rw [hdata]
  rcases hl : Nat.toDigitsCore 10 (K + 1) K [] with _ | ⟨c, cs⟩
  · exact absurd hl hne
  · have hc := hdig c (by rw [hl]; simp)
    rw [hl] at hloop
    split
    · rename_i heq
      exact absurd (List.cons.inj heq).1 hc.2.2.1
    · rename_i heq
      exact absurd (List.cons.inj heq).1 hc.2.2.2
    · simp only [hloop]
      simp
      omega

theorem toString_no_colon (K : Nat) : ':' ∉ (toString K).data := by
  have hdata : (toString K).data = Nat.toDigitsCore 10 (K + 1) K [] := rfl
  obtain ⟨_, hdig, _⟩ := toDigitsCore_spec (K + 1) K (by omega)
  intro h
  rw [hdata] at h
  exact (hdig _ h).2.1 rfl

theorem splitChars_of_not_mem (sep : Char) (a : List Char) (h : sep ∉ a) :
    splitChars sep a = [a] := by
  induction a with
  | nil => rfl
  | cons c cs ih =>
    have hc : c ≠ sep := fun e => h (by simp [e])
    have hcs : sep ∉ cs := fun e => h (by simp [e])
    simp [splitChars, hc, ih hcs]

theorem splitChars_append (sep : Char) (a b : List Char) (h : sep ∉ a) :
    splitChars sep (a ++ sep :: b) = a :: splitChars sep b := by
  induction a with
  | nil => simp [splitChars]
  | cons c cs ih =>
    have hc : c ≠ sep := fun e => h (by simp [e])
    have hcs : sep ∉ cs := fun e => h (by simp [e])
    simp [splitChars, hc, ih hcs]

theorem hasPrefix_empty (s : String) : HasPrefix s "" = true := by
  simp [HasPrefix]

theorem startsWith_two (t : Tag) (name : String) :
    StartsWith t [name, ""] = true ↔ t[0]? = some name ∧ 2 ≤ t.length := by
  rcases t with _ | ⟨a, _ | ⟨b, r⟩⟩
  · simp [StartsWith]
  · simp [StartsWith]
  · simp [StartsWith, hasPrefix_empty]

theorem find_append_cons {α : Type} (p : α → Bool) (pre post : List α) (t : α)
    (hpre : ∀ x ∈ pre, p x = false) (ht : p t = true) :
    (pre ++ t :: post).find? p = some t := by
  induction pre with
  | nil => simp [ht]
  | cons x xs ih =>
    have hx := hpre x (by simp)
    rw [List.cons_append, List.find?_cons, hx]
    exact ih (fun y hy => hpre y (by simp [hy]))

theorem getFirst_decompose (pre post : Tags) (t : Tag) (name : String)
    (hpre : ∀ x ∈ pre, ¬ (x[0]? = some name ∧ 2 ≤ x.length))
    (ht : t[0]? = some name ∧ 2 ≤ t.length) :
    GetFirst (pre ++ t :: post) [name, ""] = some t := by
  unfold GetFirst
  apply find_append_cons
  · intro x hx
    have := hpre x hx
    rw [← startsWith_two] at this
    simpa using this
  · exact (startsWith_two t name).2 ht

theorem getLast_decompose (pre post : Tags) (t : Tag) (name : String)
    (hpost : ∀ x ∈ post, ¬ (x[0]? = some name ∧ 2 ≤ x.length))
    (ht : t[0]? = some name ∧ 2 ≤ t.length) :
    GetLast (pre ++ t :: post) [name, ""] = some t := by
  unfold GetLast
  have : (pre ++ t :: post).reverse = post.reverse ++ t :: pre.reverse := by simp
  rw [this]
  apply find_append_cons
  · intro x hx
    have := hpost x (by simpa using hx)
    rw [← startsWith_two] at this
    simpa using this
  · exact (startsWith_two t name).2 ht

theorem isReplyMarked_iff (t : Tag) :
    isReplyMarked t = true ↔ t[0]? = some "e" ∧ t[3]? = some "reply" := by
  unfold isReplyMarked
  constructor
  · intro h
    simp only [Bool.and_eq_true, beq_iff_eq, decide_eq_true_eq] at h
    exact ⟨h.1.2, h.2⟩
  · rintro ⟨h0, h3⟩
    have hlen : 3 < t.length := by
      by_contra hc
      rw [List.getElem?_eq_none (by omega)] at h3
      cases h3
    simp [h0, h3]
    omega

theorem getImmediateReply_marked (pre post : Tags) (t : Tag)
    (honly : ∀ x ∈ pre ++ post, ¬ (x[0]? = some "e" ∧ x[3]? = some "reply"))
    (ht : t[0]? = some "e" ∧ t[3]? = some "reply") :
    GetImmediateReply (pre ++ t :: post) = some t := by
  unfold GetImmediateReply
  have hrev : (pre ++ t :: post).reverse = post.reverse ++ t :: pre.reverse := by simp
  have : (pre ++ t :: post).reverse.find? isReplyMarked = some t := by
    rw [hrev]
    apply find_append_cons
    · intro x hx
      have := honly x (by simp at hx ⊢; tauto)
      rw [← isReplyMarked_iff] at this
      simpa using this
    · exact (isReplyMarked_iff t).2 ht
  rw [this]

theorem getImmediateReply_unmarked (pre post : Tags) (t : Tag)
    (honly : ∀ x ∈ pre ++ post, ¬ (x[0]? = some "e" ∧ x[3]? = some "reply"))
    (hpost : ∀ x ∈ post, ¬ (x[0]? = some "e" ∧ 2 ≤ x.length))
    (ht : t[0]? = some "e" ∧ 2 ≤ t.length) (ht3 : t[3]? ≠ some "reply") :
    GetImmediateReply (pre ++ t :: post) = some t := by
  unfold GetImmediateReply
  have : (pre ++ t :: post).reverse.find? isReplyMarked = none := by
    rw [List.find?_eq_none]
    intro x hx
    have hx' : x ∈ pre ++ post ∨ x = t := by simp at hx ⊢; tauto
    rcases hx' with h | h
    · have := honly x h
      rw [← isReplyMarked_iff] at this
      exact this
    · subst h
      rw [isReplyMarked_iff]
      exact fun h => ht3 h.2
  rw [this]
  exact getLast_decompose pre post t "e" hpost ht

theorem splitChars_ne_nil (sep : Char) (l : List Char) : splitChars sep l ≠ [] := by
  cases l with
  | nil => simp [splitChars]
  | cons c cs =>
    simp only [splitChars]
    split
    · simp
    · split <;> simp

theorem shortForm_empty : shortForm "" = none := by decide

/-! ## Parent pointer and short display form -/

/-- C1 (code evaluated where the claim fails): for a kind-1311 event whose first
"a" tag has a value with fewer than three colon-separated parts,
`getParentNevent` does not return the empty string but panics on the index
`parts[1]` or `parts[2]`. -/
theorem getParentNevent_panics_on_short_address (lib : Nip19) (ee : EnhancedEvent)
    (pre post : Tags) (value : String) (more : List String)
    (hk : ee.Event.Kind = 1311)
    (htags : ee.Event.Tags = pre ++ ("a" :: value :: more) :: post)
    (hpre : ∀ t ∈ pre, ¬ (t[0]? = some "a" ∧ 2 ≤ t.length))
    (hparts : (Split value ':').length < 3) :
    ee.getParentNevent lib = none := by
  have hfirst : GetFirst ee.Event.Tags ["a", ""] = some ("a" :: value :: more) := by
    rw [htags]
    exact getFirst_decompose pre post _ "a" hpre (by simp)
  have hne : splitChars ':' value.data ≠ [] := splitChars_ne_nil _ _
  simp only [EnhancedEvent.getParentNevent, hk, hfirst]
  simp only [Split] at hparts ⊢
  rcases hs : splitChars ':' value.data with _ | ⟨a, _ | ⟨b, _ | ⟨c, r⟩⟩⟩
  · exact absurd hs hne
  · simp [hs]
  · simp [hs]
  · rw [hs] at hparts; simp at hparts; omega

/-- Witness for C1: the tag `["a", "x"]`. -/
theorem getParentNevent_panics_on_short_address_witness :
    (eventOf 1311 [["a", "x"]]).getParentNevent sampleNip19 = none :=
  getParentNevent_panics_on_short_address sampleNip19 (eventOf 1311 [["a", "x"]])
    [] [] "x" [] rfl rfl (by simp) (by decide)

/-- C2 (code evaluated where the claim fails): when `nip19.EncodePublicKey`
fails on the public key, `Npub()` is the empty string and `NpubShort()`, on
`Metadata` and on `EnhancedEvent`, panics on the slice `npub[:8]` instead of
returning the empty string. -/
theorem NpubShort_panics_on_invalid_key (lib : Nip19) (m : Metadata) (ee : EnhancedEvent)
    (pk e : String) (hfail : lib.EncodePublicKey pk = .error e)
    (hm : m.ProfileMetadata.PubKey = pk) (he : ee.Event.PubKey = pk) :
    m.Npub lib = "" ∧ ee.Npub lib = "" ∧ m.NpubShort lib = none ∧ ee.NpubShort lib = none := by
  have h1 : m.Npub lib = "" := by simp [Metadata.Npub, hm, hfail, dropErr]
  have h2 : ee.Npub lib = "" := by simp [EnhancedEvent.Npub, he, hfail, dropErr]
  refine ⟨h1, h2, ?_, ?_⟩
  · simp only [Metadata.NpubShort, h1]; exact shortForm_empty
  · simp only [EnhancedEvent.NpubShort, h2]; exact shortForm_empty

/-- Witness for C2: the key "zz" is not hexadecimal. -/
theorem NpubShort_panics_on_invalid_key_witness :
    (Metadata.mk ⟨"zz", "bob"⟩).NpubShort sampleNip19 = none
      ∧ (EnhancedEvent.mk ⟨"", "zz", 0, 1, [], "", ""⟩ []).NpubShort sampleNip19 = none :=
  (NpubShort_panics_on_invalid_key sampleNip19 ⟨⟨"zz", "bob"⟩⟩ ⟨⟨"", "zz", 0, 1, [], "", ""⟩, []⟩
    "zz" "invalid hex" rfl rfl rfl).2.2

theorem relayHint_cons (a b r : String) (more : List String) :
    relayHint (a :: b :: r :: more) = if r = "" then [] else [r] := by
  simp [relayHint]

theorem relayHint_two (a b : String) : relayHint [a, b] = [] := by
  simp [relayHint]

/-- C7: for an event of kind 1 or 1063 whose only e-tag marked "reply" is
`["e", X, R, "reply"]`, `getParentNevent` is the result of
`nip19.EncodeEvent(X, [R], "")` when `R` is non-empty and of
`nip19.EncodeEvent(X, [], "")` when `R` is empty; whenever the immediate-reply
tag has no position 2 or an empty one, the relay list passed to the encoder is
empty.  Hence any decoder that inverts the encoder on `(X, [R], "")` yields
`(X, [R])` on the result. -/
theorem getParentNevent_immediate_reply (lib : Nip19) (ee : EnhancedEvent)
    (pre post : Tags) (X R : String)
    (hk : ee.Event.Kind = 1 ∨ ee.Event.Kind = 1063)
    (honly : ∀ t ∈ pre ++ post, ¬ (t[0]? = some "e" ∧ t[3]? = some "reply")) :
    (ee.Event.Tags = pre ++ ["e", X, R, "reply"] :: post → R ≠ "" →
        ee.getParentNevent lib = some (dropErr (lib.EncodeEvent X [R] ""))
        ∧ ∀ (decode : String → Option (String × List String)) (s : String),
            lib.EncodeEvent X [R] "" = .ok s → decode s = some (X, [R]) →
            (ee.getParentNevent lib).bind decode = some (X, [R]))
    ∧ (ee.Event.Tags = pre ++ ["e", X, "", "reply"] :: post →
        ee.getParentNevent lib = some (dropErr (lib.EncodeEvent X [] "")))
    ∧ (∀ tag : Tag, GetImmediateReply ee.Event.Tags = some tag → tag[1]? = some X →
        (tag[2]? = none ∨ tag[2]? = some "") →
        ee.getParentNevent lib = some (dropErr (lib.EncodeEvent X [] ""))) := by
  have hkind : (ee.Event.Kind = 1 ∨ ee.Event.Kind = 1063) = True := by simp [hk]
  refine ⟨?_, ?_, ?_⟩
  · intro htags hR
    have hreply := getImmediateReply_marked pre post ["e", X, R, "reply"] honly (by simp)
    have hres : ee.getParentNevent lib = some (dropErr (lib.EncodeEvent X [R] "")) := by
      simp only [EnhancedEvent.getParentNevent, hkind, if_true, htags, hreply]
      simp [relayHint_cons, hR]
    refine ⟨hres, ?_⟩
    intro decode s hs hdec
    rw [hres, hs]
    simpa [dropErr] using hdec
  · intro htags
    have hreply := getImmediateReply_marked pre post ["e", X, "", "reply"] honly (by simp)
    simp only [EnhancedEvent.getParentNevent, hkind, if_true, htags, hreply]
    simp [relayHint_cons]
  · intro tag hreply hid hrelay
    have hhint : relayHint tag = [] := by
      rcases hrelay with h2 | h2 <;> simp [relayHint, h2]
    simp only [EnhancedEvent.getParentNevent, hkind, if_true, hreply]
    simp [hid, hhint]

/-- Witness for C7: a note with a p-tag and one marked reply carrying a relay hint. -/
theorem getParentNevent_immediate_reply_witness :
    (eventOf 1 [["p", "ab"], ["e", "5c83da77af1dec6d7289834998ad7aafbd9e2191396d75ec3cc27f5a77226f36",
        "wss://relay.example", "reply"]]).getParentNevent sampleNip19
      = some (dropErr (sampleNip19.EncodeEvent
          "5c83da77af1dec6d7289834998ad7aafbd9e2191396d75ec3cc27f5a77226f36"
          ["wss://relay.example"] "")) :=
  ((getParentNevent_immediate_reply sampleNip19
      (eventOf 1 [["p", "ab"], ["e", "5c83da77af1dec6d7289834998ad7aafbd9e2191396d75ec3cc27f5a77226f36",
        "wss://relay.example", "reply"]])
      [["p", "ab"]] [] "5c83da77af1dec6d7289834998ad7aafbd9e2191396d75ec3cc27f5a77226f36"
      "wss://relay.example" (Or.inl rfl) (by simp)).1 rfl (by decide)).1

/-- C9: for an event whose kind is none of 1, 1063 and 1311, `getParentNevent`
returns the empty string, whatever the tags are. -/
theorem getParentNevent_other_kinds (lib : Nip19) (ee : EnhancedEvent)
    (h1 : ee.Event.Kind ≠ 1) (h2 : ee.Event.Kind ≠ 1063) (h3 : ee.Event.Kind ≠ 1311) :
    ee.getParentNevent lib = some "" := by
  simp [EnhancedEvent.getParentNevent, h1, h2, h3]

/-- Witness for C9: a reaction (kind 7) carrying a marked reply and an address tag. -/
theorem getParentNevent_other_kinds_witness :
    (eventOf 7 [["e", "5c83da77af1dec6d7289834998ad7aafbd9e2191396d75ec3cc27f5a77226f36", "wss://r", "reply"],
        ["a", "34550:ab:c"]]).getParentNevent sampleNip19 = some "" :=
  getParentNevent_other_kinds sampleNip19 _ (by decide) (by decide) (by decide)

/-- C8: for a kind-1311 event whose first "a" tag has the value `K:P:D`, with `K`
a decimal integer (within Go's `int`) and `P`, `D` free of colons,
`getParentNevent` is the result of `nip19.EncodeEntity(P, K, D, relays)`: the
relay list is empty when the tag has no position 2 or an empty one, and `[R]`
when position 2 holds a non-empty `R`. -/
theorem getParentNevent_address (lib : Nip19) (ee : EnhancedEvent)
    (pre post : Tags) (K : Nat) (P D : String)
    (hk : ee.Event.Kind = 1311)
    (hpre : ∀ t ∈ pre, ¬ (t[0]? = some "a" ∧ 2 ≤ t.length))
    (hK : K < 2 ^ 63) (hP : ':' ∉ P.data) (hD : ':' ∉ D.data) :
    (ee.Event.Tags = pre ++ ["a", toString K ++ ":" ++ P ++ ":" ++ D] :: post →
        ee.getParentNevent lib = some (dropErr (lib.EncodeEntity P K D [])))
    ∧ (∀ more, ee.Event.Tags = pre ++ ("a" :: (toString K ++ ":" ++ P ++ ":" ++ D) :: "" :: more) :: post →
        ee.getParentNevent lib = some (dropErr (lib.EncodeEntity P K D [])))
    ∧ (∀ R more, R ≠ "" →
        ee.Event.Tags = pre ++ ("a" :: (toString K ++ ":" ++ P ++ ":" ++ D) :: R :: more) :: post →
        ee.getParentNevent lib = some (dropErr (lib.EncodeEntity P K D [R]))) := by
  have hsplit : Split (toString K ++ ":" ++ P ++ ":" ++ D) ':' = [toString K, P, D] := by
    simp only [Split, String.data_append]
    rw [List.append_assoc, List.append_assoc, List.singleton_append, List.append_assoc,
      List.singleton_append, splitChars_append _ _ _ (toString_no_colon K),
      splitChars_append _ _ _ hP, splitChars_of_not_mem _ _ hD]
    rfl
  have hkind : ¬ (ee.Event.Kind = 1 ∨ ee.Event.Kind = 1063) := by rw [hk]; decide
  have key : ∀ rest : List String,
      ee.Event.Tags = pre ++ ("a" :: (toString K ++ ":" ++ P ++ ":" ++ D) :: rest) :: post →
      ee.getParentNevent lib = some (dropErr (lib.EncodeEntity P K D
        (relayHint ("a" :: (toString K ++ ":" ++ P ++ ":" ++ D) :: rest)))) := by
    intro rest htags
    have hfirst : GetFirst ee.Event.Tags ["a", ""]
        = some ("a" :: (toString K ++ ":" ++ P ++ ":" ++ D) :: rest) := by
      rw [htags]
      exact getFirst_decompose pre post _ "a" hpre (by simp)
    simp only [EnhancedEvent.getParentNevent, hkind, if_false, hk, if_true, hfirst]
    simp [hsplit, Atoi_toString K hK]
  refine ⟨?_, ?_, ?_⟩
  · intro htags
    rw [key [] htags, relayHint_two]
  · intro more htags
    rw [key _ htags, relayHint_cons]
    simp
  · intro R more hR htags
    rw [key _ htags, relayHint_cons]
    simp [hR]

/-- Witness for C8: the address `34550:AUTHORPUBKEY:mycommunity` without a relay hint. -/
theorem getParentNevent_address_witness :
    (eventOf 1311 [["a", "34550:AUTHORPUBKEY:mycommunity"]]).getParentNevent sampleNip19
      = some (dropErr (sampleNip19.EncodeEntity "AUTHORPUBKEY" 34550 "mycommunity" [])) :=
  (getParentNevent_address sampleNip19 (eventOf 1311 [["a", "34550:AUTHORPUBKEY:mycommunity"]])
    [] [] 34550 "AUTHORPUBKEY" "mycommunity" rfl (by simp) (by norm_num) (by decide) (by decide)).1 rfl

/-! ## Preview -/

theorem previewLines_eq (shorten : String → String) (lines acc : List String) :
    previewLines shorten lines acc
      = acc ++ (lines.filter (fun l => decide (TrimSpace l ≠ ""))).map shorten := by
  induction lines generalizing acc with
  | nil => simp [previewLines]
  | cons l ls ih =>
    simp only [previewLines]
    split
    · rename_i h
      rw [ih]
      simp [List.filter_cons, h]
    · rename_i h
      rw [ih]
      simp [List.filter_cons, h]

theorem Preview_unfold (h : Helpers) (ee : EnhancedEvent) :
    ee.Preview h
      = Join (((Split (EscapeString ee.Event.Content) '\n').filter
          (fun line => decide (TrimSpace line ≠ ""))).map h.shortenNostrURLs) "<br/>" := by
  simp [EnhancedEvent.Preview, previewLines_eq]

/-- C4: `Preview` is the "<br/>"-join, in order, of the link-ifier applied to
those lines of the escaped content that are non-empty after trimming; with a
link-ifier that leaves "hello" and "world" unchanged the preview of
"hello\n\nworld" is "hello<br/>world". -/
theorem Preview_eq_join_filter (h : Helpers) (ee : EnhancedEvent) :
    ee.Preview h
      = Join (((Split (EscapeString ee.Event.Content) '\n').filter
          (fun line => decide (TrimSpace line ≠ ""))).map h.shortenNostrURLs) "<br/>"
    ∧ (ee.Event.Content = "hello\n\nworld" → h.shortenNostrURLs "hello" = "hello" →
        h.shortenNostrURLs "world" = "world" → ee.Preview h = "hello<br/>world") := by
  refine ⟨Preview_unfold h ee, ?_⟩
  intro hc h1 h2
  rw [Preview_unfold h ee, hc]
  have hlines : (Split (EscapeString "hello\n\nworld") '\n').filter
      (fun line => decide (TrimSpace line ≠ "")) = ["hello", "world"] := by decide
  rw [hlines]
  simp only [List.map, h1, h2]
  decide

/-- Witness for C4: the example of the claim with the identity as link-ifier. -/
theorem Preview_eq_join_filter_witness :
    (noteOf "hello\n\nworld").Preview idHelpers = "hello<br/>world" :=
  (Preview_eq_join_filter idHelpers (noteOf "hello\n\nworld")).2 rfl rfl rfl

theorem mem_of_mem_splitChars (sep : Char) (l : List Char) :
    ∀ piece ∈ splitChars sep l, ∀ c ∈ piece, c ∈ l ∧ c ≠ sep := by
  induction l with
  | nil => intro piece hp c hc; simp [splitChars] at hp; subst hp; simp at hc
  | cons x xs ih =>
    intro piece hp c hc
    simp only [splitChars] at hp
    split at hp
    · rcases List.mem_cons.1 hp with h | h
      · subst h; simp at hc
      · have := ih piece h c hc
        exact ⟨List.mem_cons_of_mem _ this.1, this.2⟩
    · rename_i hx
      rcases hs : splitChars sep xs with _ | ⟨p, r⟩
      · rw [hs] at hp
        simp at hp
        subst hp
        simp at hc
        subst hc
        exact ⟨by simp, hx⟩
      · rw [hs] at hp
        rcases List.mem_cons.1 hp with h | h
        · subst h
          rcases List.mem_cons.1 hc with h2 | h2
          · subst h2; exact ⟨by simp, hx⟩
          · have := ih p (by rw [hs]; simp) c h2
            exact ⟨List.mem_cons_of_mem _ this.1, this.2⟩
        · have := ih piece (by rw [hs]; simp [h]) c hc
          exact ⟨List.mem_cons_of_mem _ this.1, this.2⟩

theorem escapeChar_of_space (c : Char) (h : isSpace c = true) : escapeChar c = [c] := by
  unfold escapeChar
  split_ifs with h1 h2 h3 h4 h5
  · subst h1; exact absurd h (by decide)
  · subst h2; exact absurd h (by decide)
  · subst h3; exact absurd h (by decide)
  · subst h4; exact absurd h (by decide)
  · subst h5; exact absurd h (by decide)
  · rfl

theorem escape_of_spaces (l : List Char) (h : ∀ c ∈ l, isSpace c = true) :
    l.flatMap escapeChar = l := by
  induction l with
  | nil => rfl
  | cons x xs ih =>
    rw [List.flatMap_cons, escapeChar_of_space x (h x (by simp)), ih (fun c hc => h c (by simp [hc]))]
    rfl

theorem trimSpace_of_spaces (s : String) (h : ∀ c ∈ s.data, isSpace c = true) :
    TrimSpace s = "" := by
  have : s.data.dropWhile isSpace = [] := by
    rw [List.dropWhile_eq_nil_iff]; exact h
  simp [TrimSpace, this]

/-- C5: for a content made of whitespace and line breaks only (the empty
content included) `Preview` is the empty string, whatever the link-ifier is. -/
theorem Preview_of_blank (h : Helpers) (ee : EnhancedEvent)
    (hblank : ∀ c ∈ ee.Event.Content.data, isSpace c = true) :
    ee.Preview h = "" := by
  rw [Preview_unfold h ee]
  have hnone : (Split (EscapeString ee.Event.Content) '\n').filter
      (fun line => decide (TrimSpace line ≠ "")) = [] := by
    rw [List.filter_eq_nil_iff]
    intro line hline
    simp only [Split, EscapeString, List.mem_map] at hline
    obtain ⟨piece, hpiece, rfl⟩ := hline
    rw [escape_of_spaces _ hblank] at hpiece
    have : TrimSpace ⟨piece⟩ = "" :=
      trimSpace_of_spaces _ (fun c hc => hblank c (mem_of_mem_splitChars _ _ piece hpiece c hc).1)
    simp [this]
  rw [hnone]
  rfl

/-- Witness for C5: a content of blanks and line breaks, and the empty content. -/
theorem Preview_of_blank_witness :
    (noteOf " \n\t \n").Preview idHelpers = "" ∧ (noteOf "").Preview idHelpers = "" :=
  ⟨Preview_of_blank idHelpers (noteOf " \n\t \n") (by decide),
   Preview_of_blank idHelpers (noteOf "") (by decide)⟩

theorem escapeChar_safe (x c : Char) (hc : c ∈ escapeChar x) :
    c ≠ '<' ∧ c ≠ '>' ∧ c ≠ '"' ∧ c ≠ '\x27' := by
  unfold escapeChar at hc
  split_ifs at hc with h1 h2 h3 h4 h5
  · revert c; decide
  · revert c; decide
  · revert c; decide
  · revert c; decide
  · revert c; decide
  · simp at hc
    subst hc
    exact ⟨h3, h4, h5, h2⟩

theorem escaped_line_safe (content line : String)
    (hline : line ∈ Split (EscapeString content) '\n') :
    ∀ c ∈ line.data, c ≠ '<' ∧ c ≠ '>' ∧ c ≠ '"' ∧ c ≠ '\x27' := by
  intro c hc
  simp only [Split, EscapeString, List.mem_map] at hline
  obtain ⟨piece, hpiece, rfl⟩ := hline
  have hmem := (mem_of_mem_splitChars _ _ piece hpiece c hc).1
  rw [List.mem_flatMap] at hmem
  obtain ⟨x, _, hx⟩ := hmem
  exact escapeChar_safe x c hx

theorem count_intercalate (c : Char) (sep : List Char) (ls : List (List Char))
    (hls : ∀ l ∈ ls, c ∉ l) :
    (List.intercalate sep ls).count c = (ls.length - 1) * sep.count c := by
  induction ls with
  | nil => simp [List.intercalate]
  | cons a r ih =>
    have ha : a.count c = 0 := List.count_eq_zero.2 (hls a (by simp))
    cases r with
    | nil => simp [List.intercalate, ha]
    | cons b r2 =>
      have := ih (fun l hl => hls l (by simp [hl]))
      simp only [List.intercalate, List.intersperse, List.flatten_cons, List.count_append,
        List.length_cons] at this ⊢
      rw [this, ha]
      simp [Nat.add_mul]
      omega

/-- C6: the lines handed to the link-ifier are lines of the escaped content and
contain none of `<`, `>`, the double quote and the apostrophe; when the
link-ifier is the identity on them, the preview is their "<br/>"-join, so
that it holds exactly one `<` and one `>` per separator. -/
theorem Preview_escapes_first (ee : EnhancedEvent) (lines : List String)
    (hlines : lines = (Split (EscapeString ee.Event.Content) '\n').filter
      (fun line => decide (TrimSpace line ≠ ""))) :
    (∀ h : Helpers, ee.Preview h = Join (lines.map h.shortenNostrURLs) "<br/>")
    ∧ (∀ line ∈ lines, line ∈ Split (EscapeString ee.Event.Content) '\n'
        ∧ ∀ c ∈ line.data, c ≠ '<' ∧ c ≠ '>' ∧ c ≠ '"' ∧ c ≠ '\x27')
    ∧ (∀ h : Helpers, (∀ line ∈ lines, h.shortenNostrURLs line = line) →
        ee.Preview h = Join lines "<br/>"
        ∧ (ee.Preview h).data.count '<' = lines.length - 1
        ∧ (ee.Preview h).data.count '>' = lines.length - 1) := by
  have hmem : ∀ line ∈ lines, line ∈ Split (EscapeString ee.Event.Content) '\n' := by
    intro line hl
    rw [hlines] at hl
    exact (List.mem_filter.1 hl).1
  have hsafe : ∀ line ∈ lines, ∀ c ∈ line.data, c ≠ '<' ∧ c ≠ '>' ∧ c ≠ '"' ∧ c ≠ '\x27' :=
    fun line hl => escaped_line_safe _ line (hmem line hl)
  have hpre : ∀ h : Helpers, ee.Preview h = Join (lines.map h.shortenNostrURLs) "<br/>" := by
    intro h
    rw [hlines]
    exact Preview_unfold h ee
  refine ⟨hpre, fun line hl => ⟨hmem line hl, hsafe line hl⟩, ?_⟩
  intro h hid
  have hmap : lines.map h.shortenNostrURLs = lines := by
    conv_rhs => rw [← List.map_id lines]
    exact List.map_congr_left (fun l hl => by simpa using hid l hl)
  have hjoin : ee.Preview h = Join lines "<br/>" := by rw [hpre h, hmap]
  refine ⟨hjoin, ?_, ?_⟩
  · rw [hjoin]
    simp only [Join]
    rw [count_intercalate]
    · simp
    · intro l hl hc
      simp only [List.mem_map] at hl
      obtain ⟨line, hline, rfl⟩ := hl
      exact (hsafe line hline _ hc).1 rfl
  · rw [hjoin]
    simp only [Join]
    rw [count_intercalate]
    · simp
    · intro l hl hc
      simp only [List.mem_map] at hl
      obtain ⟨line, hline, rfl⟩ := hl
      exact (hsafe line hline _ hc).2.1 rfl

/-- Witness for C6: markup characters in the content come out escaped. -/
theorem Preview_escapes_first_witness :
    (noteOf "a <b>\n\n1 > 0").Preview idHelpers = "a &lt;b&gt;<br/>1 &gt; 0"
    ∧ ((noteOf "a <b>\n\n1 > 0").Preview idHelpers).data.count '<' = 1 :=
  ⟨((Preview_escapes_first (noteOf "a <b>\n\n1 > 0") ["a &lt;b&gt;", "1 &gt; 0"] (by decide)).2.2
      idHelpers (fun _ _ => rfl)).1,
   ((Preview_escapes_first (noteOf "a <b>\n\n1 > 0") ["a &lt;b&gt;", "1 &gt; 0"] (by decide)).2.2
      idHelpers (fun _ _ => rfl)).2.1⟩

/-! ## Edit distance -/

theorem nextRow_length (sc : Char) (tgt : List Char) (prev : List Nat) (left : Nat)
    (h : prev.length = tgt.length + 1) : (nextRow sc tgt prev left).length = tgt.length := by
  induction tgt generalizing prev left with
  | nil =>
    rcases prev with _ | ⟨a, _ | ⟨b, r⟩⟩ <;> simp [nextRow]
  | cons t ts ih =>
    rcases prev with _ | ⟨a, _ | ⟨b, r⟩⟩
    · simp at h
    · simp at h
    · simp only [nextRow, List.length_cons]
      rw [ih (b :: r) _ (by simpa using h)]

theorem nextRow_diag_zero (sc : Char) (j : Nat) :
    ∀ (tgt : List Char) (prev : List Nat) (left : Nat),
      prev.length = tgt.length + 1 → prev[j]? = some 0 → tgt[j]? = some sc →
      (nextRow sc tgt prev left)[j]? = some 0 := by
  induction j with
  | zero =>
    intro tgt prev left hlen hp ht
    rcases tgt with _ | ⟨t, ts⟩
    · simp at ht
    · rcases prev with _ | ⟨a, _ | ⟨b, r⟩⟩
      · simp at hlen
      · simp at hlen
      · simp at hp ht
        subst hp ht
        simp [nextRow]
  | succ j ih =>
    intro tgt prev left hlen hp ht
    rcases tgt with _ | ⟨t, ts⟩
    · simp at ht
    · rcases prev with _ | ⟨a, _ | ⟨b, r⟩⟩
      · simp at hlen
      · simp at hlen
      · simp only [nextRow, List.getElem?_cons_succ]
        exact ih ts (b :: r) _ (by simpa using hlen) (by simpa using hp) (by simpa using ht)

theorem distanceRows_self (src : List Char) :
    ∀ (done : List Char) (prev : List Nat),
      prev.length = (done ++ src).length + 1 → prev[done.length]? = some 0 →
      (distanceRows src (done ++ src) (done.length + 1) prev).getLast? = some 0 := by
  induction src with
  | nil =>
    intro done prev hlen hp
    simp only [distanceRows]
    rw [List.getLast?_eq_getElem?]
    simp only [List.append_nil] at hlen
    rw [hlen]
    simpa using hp
  | cons sc src ih =>
    intro done prev hlen hp
    simp only [distanceRows]
    have hstep := ih (done ++ [sc])
      ((done.length + 1) :: nextRow sc (done ++ sc :: src) prev (done.length + 1))
      (by
        simp only [List.length_cons, List.append_assoc, List.singleton_append]
        rw [nextRow_length _ _ _ _ hlen])
      (by
        simp only [List.length_append, List.length_singleton, List.getElem?_cons_succ]
        exact nextRow_diag_zero sc done.length _ prev _ hlen hp
          (by rw [List.getElem?_append_right (le_refl _)]; simp))
    simpa using hstep

/-- The edit distance between a text and itself is zero. -/
theorem DistanceForStrings_self (x : List Char) : DistanceForStrings x x = 0 := by
  unfold DistanceForStrings
  have := distanceRows_self x [] (List.range (x.length + 1)) (by simp) (by simp)
  simp only [List.nil_append, List.length_nil, Nat.zero_add] at this
  rw [this]
  rfl

/-- C10: when `RssContent()` returns, `RssTitle` returns the empty string if the
edit distance between the runes of the candidate title and of the feed content
is at most 5, and the candidate title otherwise; when the two are equal, as
for "Check this out", the distance is 0 and the result is the empty string. -/
theorem RssTitle_suppression (lib : Nip19) (h : Helpers) (ee : EnhancedEvent) (content : String)
    (hcontent : ee.RssContent lib h = some content) :
    (DistanceForStrings (ee.candidateTitle h).data content.data ≤ 5 →
        ee.RssTitle lib h = some "")
    ∧ (5 < DistanceForStrings (ee.candidateTitle h).data content.data →
        ee.RssTitle lib h = some (ee.candidateTitle h))
    ∧ (ee.candidateTitle h = content → ee.RssTitle lib h = some "") := by
  have hdef : ee.RssTitle lib h
      = some (if DistanceForStrings (ee.candidateTitle h).data content.data ≤ 5 then ""
          else ee.candidateTitle h) := by
    simp only [EnhancedEvent.RssTitle, hcontent]
    split <;> simp_all
  refine ⟨?_, ?_, ?_⟩
  · intro hd
    rw [hdef, if_pos hd]
  · intro hd
    rw [hdef, if_neg (by omega)]
  · intro ht
    rw [hdef, ht, DistanceForStrings_self]
    rfl

/-- Witness for C10: a note whose content is "Check this out". -/
theorem RssTitle_suppression_witness :
    (noteOf "Check this out").RssTitle sampleNip19 idHelpers = some "" :=
  (RssTitle_suppression sampleNip19 idHelpers (noteOf "Check this out") "Check this out"
    rfl).2.2 (by decide)

/-! ## Regular expressions -/

theorem starRun_local (p : Char → Bool) (hp : ∀ c, p c = true → reSpace c = false)
    (tail : List Char) (htail : ∀ c, tail.head? = some c → reSpace c = true)
    (k k' : List Char → Option (List Char))
    (hk : ∀ x, k' (x ++ tail) = (k x).map (· ++ tail)) (tok : List Char) :
    starRun p (tok ++ tail) k' = (starRun p tok k).map (· ++ tail) := by
  induction tok with
  | nil =>
    have h0 := hk []
    simp only [List.nil_append] at h0 ⊢
    cases tail with
    | nil => simpa [starRun] using h0
    | cons w r =>
      have hw : p w = false := by
        by_contra hc
        have h1 := hp w (by simpa using hc)
        have h2 := htail w rfl
        rw [h1] at h2
        cases h2
      simpa [starRun, hw] using h0
  | cons x xs ih =>
    have hx := hk (x :: xs)
    rw [List.cons_append]
    simp only [starRun]
    split
    · rw [ih]
      cases h : starRun p xs k with
      | none => simpa using hx
      | some rest => simp
    · simpa using hx

theorem run_local (r : Re) (hr : r.NonSpace)
    (tail : List Char) (htail : ∀ c, tail.head? = some c → reSpace c = true) :
    ∀ (k k' : List Char → Option (List Char)),
      (∀ x, k' (x ++ tail) = (k x).map (· ++ tail)) →
      ∀ tok, r.run (tok ++ tail) k' = (r.run tok k).map (· ++ tail) := by
  induction r with
  | chr c =>
    intro k k' hk tok
    cases tok with
    | nil =>
      cases tail with
      | nil => simp [Re.run]
      | cons w r =>
        have hw : w ≠ c := by
          intro e
          have h2 := htail w rfl
          rw [e] at h2
          simp only [Re.NonSpace] at hr
          rw [hr] at h2
          cases h2
        simp [Re.run, hw]
    | cons x xs =>
      rw [List.cons_append]
      simp only [Re.run]
      split
      · exact hk xs
      · rfl
  | cls p =>
    intro k k' hk tok
    cases tok with
    | nil =>
      cases tail with
      | nil => simp [Re.run]
      | cons w r =>
        have hw : p w = false := by
          by_contra hc
          have h1 := hr w (by simpa using hc)
          have h2 := htail w rfl
          rw [h1] at h2
          cases h2
        simp [Re.run, hw]
    | cons x xs =>
      rw [List.cons_append]
      simp only [Re.run]
      split
      · exact hk xs
      · rfl
  | seq a b iha ihb =>
    intro k k' hk tok
    simp only [Re.run]
    exact iha hr.1 _ _ (fun x => ihb hr.2 k k' hk x) tok
  | alt a b iha ihb =>
    intro k k' hk tok
    simp only [Re.run]
    rw [iha hr.1 k k' hk tok, ihb hr.2 k k' hk tok]
    cases a.run tok k <;> simp
  | opt a iha =>
    intro k k' hk tok
    simp only [Re.run]
    rw [iha hr k k' hk tok, hk tok]
    cases a.run tok k <;> simp
  | star p =>
    intro k k' hk tok
    simp only [Re.run]
    exact starRun_local p hr tail htail k k' hk tok

theorem matchAt_local (r : Re) (hr : r.NonSpace)
    (tail : List Char) (htail : ∀ c, tail.head? = some c → reSpace c = true) (tok : List Char) :
    r.matchAt (tok ++ tail) = r.matchAt tok := by
  unfold Re.matchAt
  rw [run_local r hr tail htail some some (fun x => rfl) tok]
  cases r.run tok some with
  | none => rfl
  | some rest =>
    simp only [Option.map_some', List.length_append]
    rw [show tok.length + tail.length - (rest.length + tail.length) = tok.length - rest.length by omega]
    rw [List.take_append_of_le_length (by omega)]

theorem find_skip (r : Re) (hr : r.NonSpace) (rest : List Char) :
    ∀ pre : List Char, (∀ c, pre.getLast? = some c → reSpace c = true) →
      r.find pre = none → r.find (pre ++ rest) = r.find rest := by
  intro pre
  induction pre with
  | nil => intro _ _; rfl
  | cons c cs ih =>
    intro hlast hnone
    simp only [Re.find] at hnone
    have hm : r.matchAt (c :: cs) = none := by
      cases h : r.matchAt (c :: cs) with
      | none => rfl
      | some m => rw [h] at hnone; cases hnone
    rw [hm] at hnone
    obtain ⟨init, w, hw⟩ : ∃ init w, c :: cs = init ++ [w] :=
      ⟨(c :: cs).dropLast, (c :: cs).getLast (by simp), (List.dropLast_append_getLast _).symm⟩
    have hwsp : reSpace w = true := hlast w (by rw [hw]; simp)
    have h1 : r.matchAt (c :: cs ++ rest) = r.matchAt init := by
      rw [hw, List.append_assoc]
      exact matchAt_local r hr _ (by intro d hd; simp at hd; subst hd; exact hwsp) init
    have h2 : r.matchAt (c :: cs) = r.matchAt init := by
      rw [hw]
      exact matchAt_local r hr _ (by intro d hd; simp at hd; subst hd; exact hwsp) init
    have hcs : ∀ d, cs.getLast? = some d → reSpace d = true := by
      intro d hd
      apply hlast d
      cases cs with
      | nil => simp at hd
      | cons e es => simpa [List.getLast?_cons_cons] using hd
    have hfind : r.find (c :: (cs ++ rest)) = r.find (cs ++ rest) := by
      have : r.matchAt (c :: (cs ++ rest)) = none := by
        have := h1
        rw [← h2, hm] at this
        simpa using this
      simp only [Re.find, this]
    rw [List.cons_append, hfind]
    exact ih hcs hnone

theorem starRun_none (p : Char → Bool) (k : List Char → Option (List Char)) (l : List Char)
    (hk : ∀ t, t <:+ l → k t = none) : starRun p l k = none := by
  induction l with
  | nil => simpa [starRun] using hk [] (List.suffix_refl _)
  | cons c cs ih =>
    have hcs := ih (fun t ht => hk t (ht.trans (List.suffix_cons c cs)))
    have hc := hk (c :: cs) (List.suffix_refl _)
    simp only [starRun, hcs, hc]
    split <;> rfl

theorem starRun_prepend (p : Char → Bool) (k : List Char → Option (List Char))
    (xs sfx res : List Char) (hxs : ∀ c ∈ xs, p c = true) (h : starRun p sfx k = some res) :
    starRun p (xs ++ sfx) k = some res := by
  induction xs with
  | nil => exact h
  | cons x xs ih =>
    rw [List.cons_append]
    simp only [starRun, hxs x (by simp), if_true, ih (fun c hc => hxs c (by simp [hc]))]

theorem imgSuffix_fail (k : List Char → Option (List Char)) (t : List Char)
    (h : t.head? ≠ some '.') : imgSuffix.run t k = none := by
  cases t with
  | nil => rfl
  | cons x xs =>
    have hx : x ≠ '.' := fun e => h (by simp [e])
    simp [imgSuffix, Re.run, hx]

theorem imgSuffix_ext (ext : String) (hext : ext ∈ ["png", "jpg", "jpeg", "gif", "bmp", "svg"]) :
    imgSuffix.run ('.' :: ext.data) some = some [] ∧ ∀ c ∈ ext.data, c ≠ '.' := by
  simp only [List.mem_cons, List.mem_singleton, List.not_mem_nil, or_false] at hext
  rcases hext with h | h | h | h | h | h <;> subst h <;> exact ⟨by decide, by decide⟩

theorem imgRegex_nonSpace : imgRegex.NonSpace := by
  simp [imgRegex, imgSuffix, imgExtension, Re.lit, Re.NonSpace, reNonSpace, reSpace]

theorem urlPrefix_run (sfx : Re) (k : List Char → Option (List Char)) (scheme : String)
    (b0 : Char) (rest res : List Char)
    (hscheme : scheme = "http" ∨ scheme = "https") (hb0 : reNonSpace b0 = true)
    (hstar : starRun reNonSpace rest (fun r => sfx.run r k) = some res) :
    Re.run (.seq (Re.lit "http".data) (.seq (.opt (.chr 's')) (.seq (Re.lit "://".data)
        (.seq (.cls reNonSpace) (.seq (.star reNonSpace) sfx)))))
      (scheme.data ++ "://".data ++ b0 :: rest) k = some res := by
  rcases hscheme with h | h <;> subst h <;> simp [Re.lit, Re.run, hb0, hstar]

theorem imgRegex_run_url (scheme ext : String) (b0 : Char) (bs : List Char)
    (hscheme : scheme = "http" ∨ scheme = "https")
    (hext : ext ∈ ["png", "jpg", "jpeg", "gif", "bmp", "svg"])
    (hb0 : reSpace b0 = false) (hbs : ∀ c ∈ bs, reSpace c = false) :
    imgRegex.run (scheme.data ++ "://".data ++ b0 :: (bs ++ '.' :: ext.data)) some = some [] := by
  obtain ⟨hrun, hnodot⟩ := imgSuffix_ext ext hext
  have hstar : starRun reNonSpace (bs ++ '.' :: ext.data) (fun rest => imgSuffix.run rest some)
      = some [] := by
    apply starRun_prepend
    · intro c hc; simp [reNonSpace, hbs c hc]
    · have hnone : starRun reNonSpace ext.data (fun rest => imgSuffix.run rest some) = none := by
        apply starRun_none
        intro t ht
        apply imgSuffix_fail
        intro hd
        cases t with
        | nil => simp at hd
        | cons x xs =>
          simp at hd
          subst hd
          exact hnodot '.' (ht.subset (by simp)) rfl
      simp only [starRun, hnone, hrun]
      rfl
  have hb0' : reNonSpace b0 = true := by simp [reNonSpace, hb0]
  exact urlPrefix_run imgSuffix some scheme b0 _ [] hscheme hb0' hstar

theorem find_of_matchAt (r : Re) (l m : List Char) (h : r.matchAt l = some m) :
    r.find l = some m := by
  cases l with
  | nil => simpa [Re.find] using h
  | cons c cs => simp [Re.find, h]

/-! ## Thumbnail -/

set_option maxRecDepth 100000 in
/-- C3 (counterexample): the image pattern is case-sensitive, so the example of
the claim, with the extension written `PNG`, yields no thumbnail. -/
theorem Thumb_uppercase_extension_not_matched :
    (noteOf "see https://example.com/pic.PNG now").Thumb = "" := by
  decide

/-- C3 (amended): `Thumb` matches the image extensions in lower case only.  When
the content holds an http(s) URL ending in `.png`, `.jpg`, `.jpeg`, `.gif`,
`.bmp` or `.svg`, free of whitespace, delimited by whitespace (or the ends of
the content), and the pattern matches nowhere in the text before it, `Thumb`
returns that URL. -/
theorem Thumb_lowercase_extension (ee : EnhancedEvent) (pre url post scheme body ext : String)
    (hcontent : ee.Event.Content = pre ++ url ++ post)
    (hurl : url = scheme ++ "://" ++ body ++ "." ++ ext)
    (hscheme : scheme = "http" ∨ scheme = "https")
    (hext : ext ∈ ["png", "jpg", "jpeg", "gif", "bmp", "svg"])
    (hbody : body ≠ "") (hfree : ∀ c ∈ body.data, reSpace c = false)
    (hpre : ∀ c, pre.data.getLast? = some c → reSpace c = true)
    (hpost : ∀ c, post.data.head? = some c → reSpace c = true)
    (hearlier : Re.find imgRegex pre.data = none) :
    ee.Thumb = url := by
  obtain ⟨b0, bs, hb⟩ : ∃ b0 bs, body.data = b0 :: bs := by
    rcases hd : body.data with _ | ⟨b0, bs⟩
    · exact absurd (String.ext hd) hbody
    · exact ⟨b0, bs, rfl⟩
  have hdata : url.data = scheme.data ++ "://".data ++ b0 :: (bs ++ '.' :: ext.data) := by
    rw [hurl]
    simp only [String.data_append, hb]
    simp
  have hrun := imgRegex_run_url scheme ext b0 bs hscheme hext
    (hfree b0 (by rw [hb]; simp)) (fun c hc => hfree c (by rw [hb]; simp [hc]))
  rw [← hdata] at hrun
  have hmatch : imgRegex.matchAt (url.data ++ post.data) = some url.data := by
    rw [matchAt_local imgRegex imgRegex_nonSpace post.data hpost]
    simp [Re.matchAt, hrun]
  have hfind : Re.find imgRegex ee.Event.Content.data = some url.data := by
    rw [hcontent]
    simp only [String.data_append, List.append_assoc]
    rw [find_skip imgRegex imgRegex_nonSpace _ pre.data hpre hearlier]
    exact find_of_matchAt _ _ _ hmatch
  simp [EnhancedEvent.Thumb, hfind]

/-- Witness for C3 (amended): the example of the claim with the extension in lower case. -/
theorem Thumb_lowercase_extension_witness :
    (noteOf "see https://example.com/pic.png now").Thumb = "https://example.com/pic.png" :=
  Thumb_lowercase_extension (noteOf "see https://example.com/pic.png now")
    "see " "https://example.com/pic.png" " now" "https" "example.com/pic" "png"
    rfl rfl (Or.inr rfl) (by simp) (by decide) (by decide) (by decide) (by decide) (by decide)

theorem getImmediateReply_length (tags : Tags) (t : Tag)
    (h : GetImmediateReply tags = some t) : 2 ≤ t.length := by
  unfold GetImmediateReply at h
  split at h
  · rename_i tag hfind
    cases h
    have := List.find?_some hfind
    simp only [isReplyMarked, Bool.and_eq_true, decide_eq_true_eq] at this
    omega
  · have := List.find?_some h
    exact ((startsWith_two t "e").1 this).2

theorem getFirst_length (tags : Tags) (name : String) (t : Tag)
    (h : GetFirst tags [name, ""] = some t) : 2 ≤ t.length :=
  by
    unfold GetFirst at h
    have hs := List.find?_some h
    exact ((startsWith_two t name).1 hs).2

/-- The only run-time panic of `getParentNevent`: it fails exactly on a
kind-1311 event whose first "a" tag has a value that splits into fewer than
three parts at the colons; on every other event it returns. -/
theorem getParentNevent_panics_iff (lib : Nip19) (ee : EnhancedEvent) :
    ee.getParentNevent lib = none ↔
      (ee.Event.Kind = 1311 ∧ ∃ atag value, GetFirst ee.Event.Tags ["a", ""] = some atag
        ∧ atag[1]? = some value ∧ (Split value ':').length < 3) := by
  by_cases hk : ee.Event.Kind = 1 ∨ ee.Event.Kind = 1063
  · have hne : ee.Event.Kind ≠ 1311 := by rcases hk with h | h <;> rw [h] <;> decide
    simp only [EnhancedEvent.getParentNevent, hk, if_true, hne, false_and, iff_false]
    cases hr : GetImmediateReply ee.Event.Tags with
    | none => simp
    | some t =>
      have hlen := getImmediateReply_length _ _ hr
      obtain ⟨id, hid⟩ : ∃ id, t[1]? = some id := ⟨t[1], by simp [List.getElem?_eq_getElem]⟩
      simp [hid]
  · by_cases h3 : ee.Event.Kind = 1311
    · simp only [EnhancedEvent.getParentNevent, hk, if_false, h3, if_true, true_and]
      cases hf : GetFirst ee.Event.Tags ["a", ""] with
      | none => simp
      | some atag =>
        have hlen := getFirst_length _ _ _ hf
        obtain ⟨value, hval⟩ : ∃ v, atag[1]? = some v := ⟨atag[1], by simp [List.getElem?_eq_getElem]⟩
        have hne : splitChars ':' value.data ≠ [] := splitChars_ne_nil _ _
        simp only [hval, Option.some.injEq, exists_eq_left', Split]
        rcases hs : splitChars ':' value.data with _ | ⟨a, _ | ⟨b, _ | ⟨c, r⟩⟩⟩
        · exact absurd hs hne
        · simp [hs, hval]
        · simp [hs, hval]
        · simp [hs, hval]
    · simp [EnhancedEvent.getParentNevent, hk, h3]

/-! ## ASCII text -/

theorem utf8Size_of_ascii (c : Char) (h : c.toNat < 128) : c.utf8Size = 1 := by
  unfold Char.utf8Size
  have hv : c.val ≤ 0x7F := by
    rw [UInt32.le_def]
    have : c.val.toNat < 128 := h
    show c.val.val ≤ (0x7F : UInt32).val
    rw [Fin.le_def]
    exact Nat.lt_succ_iff.1 this
  simp [hv]

theorem utf8Len_of_ascii (l : List Char) (h : ∀ c ∈ l, c.toNat < 128) :
    String.utf8Len l = l.length := by
  induction l with
  | nil => rfl
  | cons c cs ih =>
    rw [String.utf8Len_cons, ih (fun d hd => h d (by simp [hd])),
      utf8Size_of_ascii c (h c (by simp))]
    rfl

theorem takeBytes_of_ascii (l : List Char) (h : ∀ c ∈ l, c.toNat < 128) (n : Nat) :
    takeBytes n l = l.take n := by
  induction l generalizing n with
  | nil => simp [takeBytes]
  | cons c cs ih =>
    have hc := utf8Size_of_ascii c (h c (by simp))
    cases n with
    | zero => simp [takeBytes, hc]
    | succ m =>
      simp only [takeBytes, hc, List.take_succ_cons]
      rw [if_pos (by omega), ih (fun d hd => h d (by simp [hd]))]
      simp

theorem dropBytes_of_ascii (l : List Char) (h : ∀ c ∈ l, c.toNat < 128) (n : Nat) :
    dropBytes n l = l.drop n := by
  induction l generalizing n with
  | nil => simp [dropBytes]
  | cons c cs ih =>
    have hc := utf8Size_of_ascii c (h c (by simp))
    cases n with
    | zero => simp [dropBytes]
    | succ m =>
      simp only [dropBytes, hc, List.drop_succ_cons]
      rw [ih (fun d hd => h d (by simp [hd]))]
      simp

theorem len_of_ascii (s : String) (h : IsAscii s) : len s = s.length := by
  cases s with
  | mk l => exact utf8Len_of_ascii l h

theorem shortForm_of_ascii (p : String) (h : IsAscii p) (h8 : 8 ≤ len p) :
    shortForm p = some (⟨p.data.take 8⟩ ++ "…" ++ ⟨p.data.drop (p.data.length - 4)⟩) := by
  have hlen : len p = p.data.length := len_of_ascii p h
  have h1 : sliceTo p 8 = some ⟨p.data.take 8⟩ := by
    simp only [sliceTo]
    rw [if_pos (by omega)]
    simp [takeBytes_of_ascii p.data h]
  have h2 : sliceFrom p ((len p : Int) - 4) = some ⟨p.data.drop (p.data.length - 4)⟩ := by
    simp only [sliceFrom]
    rw [if_pos (by omega)]
    have : ((len p : Int) - 4).toNat = p.data.length - 4 := by omega
    rw [this, dropBytes_of_ascii p.data h]
  simp [shortForm, h1, h2]

theorem dropErr_ascii (r : Except String String) (h : ∀ s, r = .ok s → IsAscii s) :
    IsAscii (dropErr r) := by
  cases r with
  | error e => intro c hc; simp [dropErr] at hc
  | ok s => exact h s rfl

theorem getParentNevent_ascii (lib : Nip19) (ee : EnhancedEvent) (p : String)
    (hp : ee.getParentNevent lib = some p) : IsAscii p := by
  have hempty : IsAscii "" := by intro c hc; simp at hc
  unfold EnhancedEvent.getParentNevent at hp
  split at hp
  · split at hp
    · rename_i replyTag _
      cases hid : replyTag[1]? with
      | none => simp [hid] at hp
      | some id =>
        simp [hid] at hp
        subst hp
        exact dropErr_ascii _ (lib.EncodeEvent_ascii _ _ _)
    · cases hp; exact hempty
  · split at hp
    · split at hp
      · rename_i atag _
        cases hv : atag[1]? with
        | none => simp [hv] at hp
        | some value =>
          simp only [hv, Option.bind_eq_bind, Option.some_bind] at hp
          cases h0 : (Split value ':')[0]? with
          | none => simp [h0] at hp
          | some p0 =>
            cases h1 : (Split value ':')[1]? with
            | none => simp [h0, h1] at hp
            | some p1 =>
              cases h2 : (Split value ':')[2]? with
              | none => simp [h0, h1, h2] at hp
              | some p2 =>
                simp [h0, h1, h2] at hp
                subst hp
                exact dropErr_ascii _ (lib.EncodeEntity_ascii _ _ _ _)
      · cases hp; exact hempty
    · cases hp; exact hempty

/-! ## Feed content and live-event title -/

/-- C13: with `body` the rendered content and `p` the parent pointer, `RssContent`
is `body` when `p` is empty, and when `p` has at least 8 bytes it is the banner
"In reply to <a href='/p'>", the first 8 characters of `p`, "…", the last 4
characters of `p`, the closing separator, followed by `body` unchanged. -/
theorem RssContent_banner (lib : Nip19) (h : Helpers) (ee : EnhancedEvent) (p body : String)
    (hp : ee.getParentNevent lib = some p)
    (hbody : body = h.renderQuotesAsHTML
      (h.basicFormatting (EscapeString ee.Event.Content) true false false) false) :
    (p = "" → ee.RssContent lib h = some body)
    ∧ (8 ≤ len p → ee.RssContent lib h = some ("In reply to <a href=\x27/" ++ p ++ "\x27>"
        ++ (⟨p.data.take 8⟩ ++ "…" ++ ⟨p.data.drop (p.data.length - 4)⟩)
        ++ "</a><br/>_________________________<br/><br/>" ++ body)) := by
  constructor
  · intro he
    subst he
    simp [EnhancedEvent.RssContent, hp, hbody]
  · intro h8
    have hne : p ≠ "" := by
      intro he
      rw [he] at h8
      exact absurd h8 (by decide)
    have hshort := shortForm_of_ascii p (getParentNevent_ascii lib ee p hp) h8
    simp [EnhancedEvent.RssContent, hp, hne, hshort, hbody]

/-- Witness for C13: a reply whose marked e-tag carries a 32-byte id. -/
theorem RssContent_banner_witness :
    (EnhancedEvent.mk ⟨"", "", 0, 1,
        [["e", "5c83da77af1dec6d7289834998ad7aafbd9e2191396d75ec3cc27f5a77226f36", "", "reply"]],
        "hi", ""⟩ []).RssContent sampleNip19 idHelpers
      = some ("In reply to <a href=\x27/"
          ++ "nevent15c83da77af1dec6d7289834998ad7aafbd9e2191396d75ec3cc27f5a77226f36" ++ "\x27>"
          ++ ("nevent15" ++ "…" ++ "6f36")
          ++ "</a><br/>_________________________<br/><br/>" ++ "hi") :=
  (RssContent_banner sampleNip19 idHelpers
    (EnhancedEvent.mk ⟨"", "", 0, 1,
        [["e", "5c83da77af1dec6d7289834998ad7aafbd9e2191396d75ec3cc27f5a77226f36", "", "reply"]],
        "hi", ""⟩ [])
    "nevent15c83da77af1dec6d7289834998ad7aafbd9e2191396d75ec3cc27f5a77226f36" "hi"
    (by decide) rfl).2 (by decide)

/-- C14: `title()` is the raw title when no host is attached and
`Title + " by " + Host.Name` when one is; the raw title is a prefix of the
result in both cases. -/
theorem title_composition (le : Kind30311Metadata) :
    (le.Host = none → le.title = le.Title)
    ∧ (∀ host, le.Host = some host → le.title = le.Title ++ " by " ++ host.Name)
    ∧ le.Title.data <+: le.title.data := by
  refine ⟨?_, ?_, ?_⟩
  · intro hn
    simp [Kind30311Metadata.title, hn]
  · intro host hs
    simp [Kind30311Metadata.title, hs]
  · cases hh : le.Host with
    | none => simp [Kind30311Metadata.title, hh]
    | some host =>
      simp only [Kind30311Metadata.title, hh, String.data_append, List.append_assoc]
      exact List.prefix_append _ _

/-- Witness for C14: a live event hosted by "alice". -/
theorem title_composition_witness :
    (Kind30311Metadata.mk "Live now" (some ⟨"ab", "alice"⟩)).title = "Live now by alice"
    ∧ (Kind30311Metadata.mk "Live now" none).title = "Live now" :=
  ⟨(title_composition ⟨"Live now", some ⟨"ab", "alice"⟩⟩).2.1 ⟨"ab", "alice"⟩ rfl,
   (title_composition ⟨"Live now", none⟩).1 rfl⟩

/-! ## Length of the title -/

theorem len_eq_utf8Len (s : String) : len s = String.utf8Len s.data := by
  cases s; rfl

theorem len_append (a b : String) : len (a ++ b) = len a + len b := by
  simp [len_eq_utf8Len, String.data_append]

theorem length_le_utf8Len (l : List Char) : l.length ≤ String.utf8Len l := by
  induction l with
  | nil => simp
  | cons c cs ih =>
    have := c.utf8Size_pos
    simp only [List.length_cons, String.utf8Len_cons]
    omega

theorem length_le_len (s : String) : s.length ≤ len s := by
  rw [len_eq_utf8Len]
  exact length_le_utf8Len s.data

theorem len_marker : len " ..." = 4 := by decide

theorem len_space : len " " = 1 := by decide

theorem len_empty : len "" = 0 := by decide

theorem titleLoop_shape (words : List String) :
    ∀ (i : Nat) (title : String), len title ≤ 65 →
      ∃ base, len base ≤ 65 ∧
        (titleLoop i words title = base ∨ titleLoop i words title = base ++ " ...") := by
  induction words with
  | nil =>
    intro i title ht
    exact ⟨title, ht, Or.inl rfl⟩
  | cons word words ih =>
    intro i title ht
    simp only [titleLoop]
    split
    · rename_i hfit
      apply ih
      split
      · rw [len_append, len_append, len_space]; omega
      · rw [len_append]; omega
    · split
      · exact ⟨title, ht, Or.inr rfl⟩
      · exact ⟨"", by decide, Or.inl rfl⟩

theorem candidateTitle_shape (h : Helpers) (ee : EnhancedEvent) :
    ∃ base, len base ≤ 65 ∧
      (ee.candidateTitle h = base ∨ ee.candidateTitle h = base ++ " ...") :=
  titleLoop_shape _ 0 "" (by decide)

theorem candidateTitle_len (h : Helpers) (ee : EnhancedEvent) : len (ee.candidateTitle h) ≤ 69 := by
  obtain ⟨base, hb, hc | hc⟩ := candidateTitle_shape h ee
  · rw [hc]; omega
  · rw [hc, len_append, len_marker]; omega

theorem RssTitle_cases (lib : Nip19) (h : Helpers) (ee : EnhancedEvent) (content : String)
    (hcontent : ee.RssContent lib h = some content) :
    ee.RssTitle lib h
      = some (if DistanceForStrings (ee.candidateTitle h).data content.data ≤ 5 then ""
          else ee.candidateTitle h) := by
  simp only [EnhancedEvent.RssTitle, hcontent]
  split <;> simp_all

/-- C18: the candidate title is a text of at most 65 bytes (hence of at most 65
characters), possibly followed by the 4-byte marker " ...", so it has at most
69 bytes; whatever `RssTitle` returns is the empty string or the candidate
title, and has at most 69 bytes. -/
theorem RssTitle_length_bound (lib : Nip19) (h : Helpers) (ee : EnhancedEvent) :
    (∃ base, len base ≤ 65 ∧ base.length ≤ 65 ∧
        (ee.candidateTitle h = base ∨ ee.candidateTitle h = base ++ " ..."))
    ∧ len (ee.candidateTitle h) ≤ 69
    ∧ (∀ t, ee.RssTitle lib h = some t →
        (t = "" ∨ t = ee.candidateTitle h) ∧ len t ≤ 69)
    ∧ (∀ content, ee.RssContent lib h = some content →
        ∃ t, ee.RssTitle lib h = some t ∧ len t ≤ 69) := by
  have hlen := candidateTitle_len h ee
  have hreturn : ∀ content, ee.RssContent lib h = some content →
      ∃ t, ee.RssTitle lib h = some t ∧ (t = "" ∨ t = ee.candidateTitle h) ∧ len t ≤ 69 := by
    intro content hc
    rw [RssTitle_cases lib h ee content hc]
    split
    · exact ⟨"", rfl, Or.inl rfl, by decide⟩
    · exact ⟨_, rfl, Or.inr rfl, hlen⟩
  refine ⟨?_, hlen, ?_, ?_⟩
  · obtain ⟨base, hb, hc⟩ := candidateTitle_shape h ee
    exact ⟨base, hb, le_trans (length_le_len base) hb, hc⟩
  · intro t ht
    cases hc : ee.RssContent lib h with
    | none => simp [EnhancedEvent.RssTitle, hc] at ht
    | some content =>
      obtain ⟨t2, ht2, hcase, hl⟩ := hreturn content hc
      rw [ht] at ht2
      cases ht2
      exact ⟨hcase, hl⟩
  · intro content hc
    obtain ⟨t, ht, _, hl⟩ := hreturn content hc
    exact ⟨t, ht, hl⟩

set_option maxRecDepth 100000 in
/-- Witness for C18: a long note, truncated after the words that fit. -/
theorem RssTitle_length_bound_witness :
    ∃ t, (noteOf "one two three four five six seven eight nine ten eleven twelve thirteen fourteen").RssTitle
        sampleNip19 idHelpers = some t ∧ len t ≤ 69 :=
  (RssTitle_length_bound sampleNip19 idHelpers
    (noteOf "one two three four five six seven eight nine ten eleven twelve thirteen fourteen")).2.2.2
    "one two three four five six seven eight nine ten eleven twelve thirteen fourteen" (by decide)

/-! ## A lower bound on the edit distance -/

theorem nextRow_lower (sc : Char) (i : Nat) (tgt : List Char) :
    ∀ (prev : List Nat) (left j0 : Nat),
      (∀ k v, prev[k]? = some v → j0 + k ≤ v + i) → j0 ≤ left + (i + 1) →
      ∀ k v, (nextRow sc tgt prev left)[k]? = some v → j0 + 1 + k ≤ v + (i + 1) := by
  induction tgt with
  | nil =>
    intro prev left j0 _ _ k v hk
    rcases prev with _ | ⟨a, _ | ⟨b, r⟩⟩ <;> simp [nextRow] at hk
  | cons t ts ih =>
    intro prev left j0 hprev hleft k v hk
    rcases prev with _ | ⟨diag, _ | ⟨up, rest⟩⟩
    · simp [nextRow] at hk
    · simp [nextRow] at hk
    · have hdiag := hprev 0 diag (by simp)
      have hup := hprev 1 up (by simp)
      have hcell : j0 + 1 ≤ min (up + 1) (min (if sc = t then diag else diag + 2) (left + 1)) + (i + 1) := by
        have hm : diag ≤ (if sc = t then diag else diag + 2) := by split <;> omega
        generalize (if sc = t then diag else diag + 2) = m at hm
        omega
      simp only [nextRow] at hk
      cases k with
      | zero =>
        simp at hk
        subst hk
        omega
      | succ k =>
        simp only [List.getElem?_cons_succ] at hk
        have := ih (up :: rest) _ (j0 + 1)
          (fun k2 v2 h2 => by
            have := hprev (k2 + 1) v2 (by simpa using h2)
            omega)
          hcell k v hk
        omega

theorem distanceRows_lower (src tgt : List Char) :
    ∀ (r : Nat) (prev : List Nat),
      prev.length = tgt.length + 1 → (∀ k v, prev[k]? = some v → k ≤ v + r) →
      (distanceRows src tgt (r + 1) prev).length = tgt.length + 1
        ∧ ∀ k v, (distanceRows src tgt (r + 1) prev)[k]? = some v → k ≤ v + (r + src.length) := by
  induction src with
  | nil =>
    intro r prev hlen hprev
    exact ⟨hlen, by simpa [distanceRows] using hprev⟩
  | cons sc src ih =>
    intro r prev hlen hprev
    simp only [distanceRows]
    have hstep := ih (r + 1) ((r + 1) :: nextRow sc tgt prev (r + 1))
      (by simp [nextRow_length sc tgt prev (r + 1) hlen])
      (by
        intro k v hk
        cases k with
        | zero => omega
        | succ k =>
          simp only [List.getElem?_cons_succ] at hk
          have := nextRow_lower sc r tgt prev (r + 1) 0
            (fun k2 v2 h2 => by have := hprev k2 v2 h2; omega) (by omega) k v hk
          omega)
    refine ⟨hstep.1, ?_⟩
    intro k v hk
    have := hstep.2 k v hk
    simp only [List.length_cons]
    omega

/-- A target longer than the source is at a distance of at least the difference
of the lengths: every missing character costs an insertion. -/
theorem DistanceForStrings_lower (source target : List Char) :
    target.length ≤ DistanceForStrings source target + source.length := by
  obtain ⟨hlen, hrow⟩ := distanceRows_lower source target 0 (List.range (target.length + 1))
    (by simp) (by
      intro k v hk
      have hlt : k < (List.range (target.length + 1)).length := by
        by_contra hc
        rw [List.getElem?_eq_none (by omega)] at hk
        cases hk
      rw [List.getElem?_eq_getElem hlt, List.getElem_range] at hk
      cases hk
      omega)
  unfold DistanceForStrings
  simp only [Nat.zero_add] at hlen hrow
  rw [List.getLast?_eq_getElem?, hlen]
  simp only [Nat.add_sub_cancel]
  cases hl : (distanceRows source target 1 (List.range (target.length + 1)))[target.length]? with
  | none =>
    rw [List.getElem?_eq_none_iff] at hl
    omega
  | some v =>
    have := hrow _ _ hl
    simpa using this

/-! ## Replies are never suppressed -/

theorem RssContent_of_parent (lib : Nip19) (h : Helpers) (ee : EnhancedEvent) (p : String)
    (hp : ee.getParentNevent lib = some p) (h8 : 8 ≤ len p) :
    ee.RssContent lib h = some ("In reply to <a href=\x27/" ++ p ++ "\x27>"
      ++ (⟨p.data.take 8⟩ ++ "…" ++ ⟨p.data.drop (p.data.length - 4)⟩)
      ++ "</a><br/>_________________________<br/><br/>"
      ++ h.renderQuotesAsHTML
          (h.basicFormatting (EscapeString ee.Event.Content) true false false) false) := by
  have hne : p ≠ "" := by
    intro he
    rw [he] at h8
    exact absurd h8 (by decide)
  have hshort := shortForm_of_ascii p (getParentNevent_ascii lib ee p hp) h8
  simp [EnhancedEvent.RssContent, hp, hne, hshort]

/-- C19: when the parent pointer has at least 8 bytes, `RssContent` returns a
text starting with the reply banner, of at least 89 characters, while the
candidate title has at most 69; their edit distance therefore exceeds 5 and
`RssTitle` returns the candidate title itself. -/
theorem RssTitle_reply_not_suppressed (lib : Nip19) (h : Helpers) (ee : EnhancedEvent)
    (p : String) (hp : ee.getParentNevent lib = some p) (h8 : 8 ≤ len p) :
    ∃ content, ee.RssContent lib h = some content
      ∧ ("In reply to <a href=\x27/" ++ p).data <+: content.data
      ∧ 89 ≤ content.length
      ∧ (ee.candidateTitle h).length ≤ 69
      ∧ 5 < DistanceForStrings (ee.candidateTitle h).data content.data
      ∧ ee.RssTitle lib h = some (ee.candidateTitle h) := by
  have hascii := getParentNevent_ascii lib ee p hp
  have hplen : len p = p.data.length := len_of_ascii p hascii
  have hcontent := RssContent_of_parent lib h ee p hp h8
  have hlong : 89 ≤ ("In reply to <a href=\x27/" ++ p ++ "\x27>"
      ++ (⟨p.data.take 8⟩ ++ "…" ++ ⟨p.data.drop (p.data.length - 4)⟩)
      ++ "</a><br/>_________________________<br/><br/>"
      ++ h.renderQuotesAsHTML
          (h.basicFormatting (EscapeString ee.Event.Content) true false false) false).length := by
    have e1 : ("In reply to <a href=\x27/" : String).length = 22 := by decide
    have e2 : ("\x27>" : String).length = 2 := by decide
    have e3 : ("…" : String).length = 1 := by decide
    have e4 : ("</a><br/>_________________________<br/><br/>" : String).length = 44 := by
      decide
    have e5 : (⟨p.data.take 8⟩ : String).length = 8 := by
      show (p.data.take 8).length = 8
      rw [List.length_take]; omega
    have e6 : (⟨p.data.drop (p.data.length - 4)⟩ : String).length = 4 := by
      show (p.data.drop (p.data.length - 4)).length = 4
      rw [List.length_drop]; omega
    have e7 : p.length = p.data.length := rfl
    simp only [String.length_append, e1, e2, e3, e4, e5, e6, e7]
    omega
  have htitle : (ee.candidateTitle h).length ≤ 69 :=
    le_trans (length_le_len _) (candidateTitle_len h ee)
  have hprefix : ("In reply to <a href=\x27/" ++ p).data <+: ("In reply to <a href=\x27/" ++ p ++ "\x27>"
      ++ (⟨p.data.take 8⟩ ++ "…" ++ ⟨p.data.drop (p.data.length - 4)⟩)
      ++ "</a><br/>_________________________<br/><br/>"
      ++ h.renderQuotesAsHTML
          (h.basicFormatting (EscapeString ee.Event.Content) true false false) false).data := by
    simp only [String.data_append, List.append_assoc]
    exact List.prefix_append _ _
  revert hcontent hlong hprefix
  generalize ("In reply to <a href=\x27/" ++ p ++ "\x27>"
      ++ (⟨p.data.take 8⟩ ++ "…" ++ ⟨p.data.drop (p.data.length - 4)⟩)
      ++ "</a><br/>_________________________<br/><br/>"
      ++ h.renderQuotesAsHTML
          (h.basicFormatting (EscapeString ee.Event.Content) true false false) false) = content
  intro hcontent hlong hprefix
  have hlower : content.length
      ≤ DistanceForStrings (ee.candidateTitle h).data content.data + (ee.candidateTitle h).length :=
    DistanceForStrings_lower (ee.candidateTitle h).data content.data
  have hdist : 5 < DistanceForStrings (ee.candidateTitle h).data content.data := by omega
  refine ⟨content, hcontent, hprefix, hlong, htitle, hdist, ?_⟩
  rw [RssTitle_cases lib h ee _ hcontent, if_neg (by omega)]

/-- Witness for C19: a reply whose parent id is 32 bytes of hexadecimal. -/
theorem RssTitle_reply_not_suppressed_witness :
    (EnhancedEvent.mk ⟨"", "", 0, 1,
        [["e", "5c83da77af1dec6d7289834998ad7aafbd9e2191396d75ec3cc27f5a77226f36", "", "reply"]],
        "hi", ""⟩ []).RssTitle sampleNip19 idHelpers = some "hi" := by
  obtain ⟨_, _, _, _, _, _, hres⟩ := RssTitle_reply_not_suppressed sampleNip19 idHelpers
    (EnhancedEvent.mk ⟨"", "", 0, 1,
        [["e", "5c83da77af1dec6d7289834998ad7aafbd9e2191396d75ec3cc27f5a77226f36", "", "reply"]],
        "hi", ""⟩ [])
    "nevent15c83da77af1dec6d7289834998ad7aafbd9e2191396d75ec3cc27f5a77226f36"
    (by decide) (by decide)
  rw [hres]
  decide

/-! ## A d-tag holding a colon -/

/-- C17 (code evaluated where the claim fails): when the d-tag part of the address
is `D1:D2`, with `D1` free of colons, `strings.Split` cuts it as well and the
identifier handed to `nip19.EncodeEntity` is `D1`, not `D1:D2`. -/
theorem getParentNevent_truncates_dtag (lib : Nip19) (ee : EnhancedEvent)
    (pre post : Tags) (K : Nat) (P D1 D2 : String) (more : List String)
    (hk : ee.Event.Kind = 1311)
    (htags : ee.Event.Tags
      = pre ++ ("a" :: (toString K ++ ":" ++ P ++ ":" ++ (D1 ++ ":" ++ D2)) :: more) :: post)
    (hpre : ∀ t ∈ pre, ¬ (t[0]? = some "a" ∧ 2 ≤ t.length))
    (hK : K < 2 ^ 63) (hP : ':' ∉ P.data) (hD1 : ':' ∉ D1.data) :
    ee.getParentNevent lib = some (dropErr (lib.EncodeEntity P K D1
      (relayHint ("a" :: (toString K ++ ":" ++ P ++ ":" ++ (D1 ++ ":" ++ D2)) :: more)))) := by
  have hsplit : ∃ rest, Split (toString K ++ ":" ++ P ++ ":" ++ (D1 ++ ":" ++ D2)) ':'
      = toString K :: P :: D1 :: rest := by
    refine ⟨(splitChars ':' D2.data).map String.mk, ?_⟩
    simp only [Split, String.data_append]
    rw [List.append_assoc, List.append_assoc, List.singleton_append, List.append_assoc,
      List.singleton_append, List.append_assoc, List.singleton_append,
      splitChars_append _ _ _ (toString_no_colon K),
      splitChars_append _ _ _ hP, splitChars_append _ _ _ hD1]
    rfl
  obtain ⟨rest, hrest⟩ := hsplit
  have hkind : ¬ (ee.Event.Kind = 1 ∨ ee.Event.Kind = 1063) := by rw [hk]; decide
  have hfirst : GetFirst ee.Event.Tags ["a", ""]
      = some ("a" :: (toString K ++ ":" ++ P ++ ":" ++ (D1 ++ ":" ++ D2)) :: more) := by
    rw [htags]
    exact getFirst_decompose pre post _ "a" hpre (by simp)
  simp only [EnhancedEvent.getParentNevent, hkind, if_false, hk, if_true, hfirst]
  simp [hrest, Atoi_toString K hK]

/-- Witness for C17: the address `30023:PUBKEY:my:article`. -/
theorem getParentNevent_truncates_dtag_witness :
    (eventOf 1311 [["a", "30023:PUBKEY:my:article"]]).getParentNevent sampleNip19
      = some (dropErr (sampleNip19.EncodeEntity "PUBKEY" 30023 "my" [])) :=
  getParentNevent_truncates_dtag sampleNip19 (eventOf 1311 [["a", "30023:PUBKEY:my:article"]])
    [] [] 30023 "PUBKEY" "my" "article" [] rfl rfl (by simp) (by norm_num) (by decide) (by decide)

/-! ## What a match looks like -/

theorem starRun_sound (p : Char → Bool) (s : List Char) :
    ∀ (k : List Char → Option (List Char)) (out : List Char), starRun p s k = some out →
      ∃ m rest, s = m ++ rest ∧ (∀ x ∈ m, p x = true) ∧ k rest = some out := by
  induction s with
  | nil =>
    intro k out h
    exact ⟨[], [], rfl, by simp, by simpa [starRun] using h⟩
  | cons c cs ih =>
    intro k out h
    simp only [starRun] at h
    split at h
    · rename_i hc
      split at h
      · rename_i rest hrun
        cases h
        obtain ⟨m, rest2, hs, hm, hk⟩ := ih k _ hrun
        refine ⟨c :: m, rest2, by rw [hs]; rfl, ?_, hk⟩
        intro x hx
        rcases List.mem_cons.1 hx with e | e
        · rw [e]; exact hc
        · exact hm x e
      · exact ⟨[], c :: cs, rfl, by simp, h⟩
    · exact ⟨[], c :: cs, rfl, by simp, h⟩

theorem run_sound (r : Re) :
    ∀ (s : List Char) (k : List Char → Option (List Char)) (out : List Char),
      r.run s k = some out → ∃ m rest, s = m ++ rest ∧ r.Matches m ∧ k rest = some out := by
  induction r with
  | chr c =>
    intro s k out h
    cases s with
    | nil => simp [Re.run] at h
    | cons x xs =>
      simp only [Re.run] at h
      split at h
      · rename_i hx
        exact ⟨[c], xs, by rw [hx]; rfl, rfl, h⟩
      · cases h
  | cls p =>
    intro s k out h
    cases s with
    | nil => simp [Re.run] at h
    | cons x xs =>
      simp only [Re.run] at h
      split at h
      · rename_i hx
        exact ⟨[x], xs, rfl, ⟨x, rfl, hx⟩, h⟩
      · cases h
  | seq a b iha ihb =>
    intro s k out h
    simp only [Re.run] at h
    obtain ⟨m1, r1, hs1, hm1, hk1⟩ := iha s _ out h
    obtain ⟨m2, r2, hs2, hm2, hk2⟩ := ihb r1 k out hk1
    exact ⟨m1 ++ m2, r2, by rw [hs1, hs2, List.append_assoc], ⟨m1, m2, rfl, hm1, hm2⟩, hk2⟩
  | alt a b iha ihb =>
    intro s k out h
    simp only [Re.run] at h
    split at h
    · rename_i rest hrun
      cases h
      obtain ⟨m, r, hs, hm, hk⟩ := iha s k _ hrun
      exact ⟨m, r, hs, Or.inl hm, hk⟩
    · obtain ⟨m, r, hs, hm, hk⟩ := ihb s k out h
      exact ⟨m, r, hs, Or.inr hm, hk⟩
  | opt a iha =>
    intro s k out h
    simp only [Re.run] at h
    split at h
    · rename_i rest hrun
      cases h
      obtain ⟨m, r, hs, hm, hk⟩ := iha s k _ hrun
      exact ⟨m, r, hs, Or.inr hm, hk⟩
    · exact ⟨[], s, rfl, Or.inl rfl, h⟩
  | star p =>
    intro s k out h
    simp only [Re.run] at h
    obtain ⟨m, r, hs, hm, hk⟩ := starRun_sound p s k out h
    exact ⟨m, r, hs, hm, hk⟩

theorem matchAt_sound (r : Re) (s m : List Char) (h : r.matchAt s = some m) :
    ∃ rest, s = m ++ rest ∧ r.Matches m := by
  unfold Re.matchAt at h
  split at h
  · rename_i rest hrun
    obtain ⟨m2, rest2, hs, hm, hk⟩ := run_sound r s some rest hrun
    cases hk
    cases h
    refine ⟨rest, ?_, ?_⟩
    · rw [hs]; simp
    · rw [hs]; simpa using hm
  · cases h

theorem find_sound (r : Re) (s m : List Char) (h : r.find s = some m) :
    ∃ pre post, s = pre ++ m ++ post ∧ r.Matches m := by
  induction s with
  | nil =>
    simp only [Re.find] at h
    obtain ⟨rest, hs, hm⟩ := matchAt_sound r [] m h
    exact ⟨[], rest, by simpa using hs, hm⟩
  | cons c cs ih =>
    simp only [Re.find] at h
    split at h
    · rename_i m2 hm2
      cases h
      obtain ⟨rest, hs, hm⟩ := matchAt_sound r (c :: cs) _ hm2
      exact ⟨[], rest, by simpa using hs, hm⟩
    · obtain ⟨pre, post, hs, hm⟩ := ih h
      exact ⟨c :: pre, post, by rw [hs]; simp, hm⟩

theorem lit_matches (l : List Char) (hl : l ≠ []) (m : List Char)
    (h : (Re.lit l).Matches m) : m = l := by
  induction l generalizing m with
  | nil => exact absurd rfl hl
  | cons c cs ih =>
    cases cs with
    | nil => simpa [Re.lit, Re.Matches] using h
    | cons d ds =>
      simp only [Re.lit, Re.Matches] at h
      obtain ⟨m1, m2, hm, h1, h2⟩ := h
      rw [hm, h1, ih (by simp) m2 h2]
      rfl

theorem imgExtension_matches (e : List Char) (h : imgExtension.Matches e) :
    e ∈ ["png".data, "jpeg".data, "jpg".data, "gif".data, "bmp".data, "svg".data] := by
  simp only [imgExtension, Re.Matches] at h
  rcases h with h | h | h | h | h
  · obtain ⟨_, _, rfl, rfl, _, _, rfl, rfl, rfl⟩ := h
    decide
  · obtain ⟨_, _, rfl, ⟨_, _, rfl, rfl, rfl⟩, _, _, rfl, h3, rfl⟩ := h
    rcases h3 with rfl | rfl <;> decide
  · obtain ⟨_, _, rfl, rfl, _, _, rfl, rfl, rfl⟩ := h
    decide
  · obtain ⟨_, _, rfl, rfl, _, _, rfl, rfl, rfl⟩ := h
    decide
  · obtain ⟨_, _, rfl, rfl, _, _, rfl, rfl, rfl⟩ := h
    decide

theorem urlPrefix_matches (sfx : Re) (m : List Char)
    (h : Re.Matches (.seq (Re.lit "http".data) (.seq (.opt (.chr 's')) (.seq (Re.lit "://".data)
        (.seq (.cls reNonSpace) (.seq (.star reNonSpace) sfx))))) m) :
    ∃ (s : List Char) (b0 : Char) (bs r : List Char),
      m = "http".data ++ s ++ "://".data ++ (b0 :: bs) ++ r
      ∧ (s = [] ∨ s = ['s']) ∧ reNonSpace b0 = true ∧ (∀ x ∈ bs, reNonSpace x = true)
      ∧ sfx.Matches r := by
  simp only [Re.Matches] at h
  obtain ⟨m1, r1, e1, h1, m2, r2, e2, h2, m3, r3, e3, h3, m4, r4, e4, ⟨b0, hb0, hb0p⟩,
    m5, r5, e5, h5, h6⟩ := h
  obtain ⟨_, _, rfl, rfl, _, _, rfl, rfl, _, _, rfl, rfl, rfl⟩ := h1
  obtain ⟨_, _, rfl, rfl, _, _, rfl, rfl, rfl⟩ := h3
  refine ⟨m2, b0, m5, r5, ?_, h2, hb0p, h5, h6⟩
  rw [e1, e2, e3, e4, e5, hb0]
  simp

theorem imgSuffix_matches (r : List Char) (h : imgSuffix.Matches r) :
    ∃ e tail, r = ('.' :: e) ++ tail
      ∧ e ∈ ["png".data, "jpeg".data, "jpg".data, "gif".data, "bmp".data, "svg".data]
      ∧ (tail = [] ∨ ∃ t, tail = '/' :: t ∧ ∀ x ∈ t, reNonSpace x = true) := by
  have h2 : ∃ m1 r1, r = m1 ++ r1 ∧ m1 = ['.'] ∧ ∃ m2 r2, r1 = m2 ++ r2 ∧ imgExtension.Matches m2
      ∧ (r2 = [] ∨ ∃ t1 t2, r2 = t1 ++ t2 ∧ t1 = ['/'] ∧ ∀ x ∈ t2, reNonSpace x = true) := h
  obtain ⟨m1, r1, e1, hm1, m2, r2, e2, hext, htail⟩ := h2
  refine ⟨m2, r2, by rw [e1, hm1, e2]; rfl, imgExtension_matches m2 hext, ?_⟩
  rcases htail with ht | ⟨t1, t2, et, ht1, ht2⟩
  · exact Or.inl ht
  · exact Or.inr ⟨t2, by rw [et, ht1]; rfl, ht2⟩

theorem imgRegex_matches (m : List Char) (h : imgRegex.Matches m) :
    ∃ (s : List Char) (b0 : Char) (bs e tail : List Char),
      m = "http".data ++ s ++ "://".data ++ (b0 :: bs) ++ ('.' :: e) ++ tail
      ∧ (s = [] ∨ s = ['s']) ∧ reNonSpace b0 = true ∧ (∀ x ∈ bs, reNonSpace x = true)
      ∧ e ∈ ["png".data, "jpeg".data, "jpg".data, "gif".data, "bmp".data, "svg".data]
      ∧ (tail = [] ∨ ∃ t, tail = '/' :: t ∧ ∀ x ∈ t, reNonSpace x = true) := by
  obtain ⟨s, b0, bs, r, hm, hs, hb0, hbs, hr⟩ := urlPrefix_matches imgSuffix m h
  obtain ⟨e, tail, hr2, he, htail⟩ := imgSuffix_matches r hr
  refine ⟨s, b0, bs, e, tail, ?_, hs, hb0, hbs, he, htail⟩
  rw [hm, hr2]
  simp

set_option maxRecDepth 100000 in
/-- C16 (counterexample): the pattern ends with the optional group `(?:/[^\s]*)?`,
so a match may go on after the extension; here the result ends in `/view` and
in none of the allow-listed extensions. -/
theorem Thumb_result_with_tail :
    (noteOf "see https://example.com/pic.png/view now").Thumb = "https://example.com/pic.png/view"
    ∧ ∀ ext ∈ ["png", "jpg", "jpeg", "gif", "bmp", "svg"],
        ¬ ("." ++ ext).data <:+ (noteOf "see https://example.com/pic.png/view now").Thumb.data := by
  decide

/-- C16 (amended): a non-empty result of `Thumb` is a substring of the content made
of "http://" or "https://", a non-empty run, a dot, one of the allow-listed
extensions in lower case and, optionally, a slash with a further run; it holds
none of the characters of the class `\s` (tab, newline, form feed, carriage
return, space). -/
theorem Thumb_result_shape (ee : EnhancedEvent) (hne : ee.Thumb ≠ "") :
    ∃ pre post scheme body ext tail : String,
      ee.Event.Content = pre ++ ee.Thumb ++ post
      ∧ ee.Thumb = scheme ++ "://" ++ body ++ "." ++ ext ++ tail
      ∧ (scheme = "http" ∨ scheme = "https") ∧ body ≠ ""
      ∧ ext ∈ ["png", "jpeg", "jpg", "gif", "bmp", "svg"]
      ∧ (tail = "" ∨ ∃ rest, tail = "/" ++ rest)
      ∧ ∀ c ∈ ee.Thumb.data, reSpace c = false := by
  cases hfind : Re.find imgRegex ee.Event.Content.data with
  | none => exact absurd (by simp [EnhancedEvent.Thumb, hfind]) hne
  | some m =>
    have hthumb : ee.Thumb = ⟨m⟩ := by simp [EnhancedEvent.Thumb, hfind]
    obtain ⟨pre, post, hs, hm⟩ := find_sound imgRegex _ m hfind
    obtain ⟨s, b0, bs, e, tail, hshape, hsch, hb0, hbs, he, htail⟩ := imgRegex_matches m hm
    have hns : ∀ x, reNonSpace x = true → reSpace x = false := by
      intro x hx
      simpa [reNonSpace] using hx
    refine ⟨⟨pre⟩, ⟨post⟩, ⟨"http".data ++ s⟩, ⟨b0 :: bs⟩, ⟨e⟩, ⟨tail⟩, ?_, ?_, ?_, ?_, ?_, ?_, ?_⟩
    · rw [hthumb]
      apply String.ext
      simpa [String.data_append] using hs
    · rw [hthumb]
      apply String.ext
      simp only [String.data_append]
      rw [hshape]
      simp
    · rcases hsch with h | h <;> subst h
      · exact Or.inl rfl
      · exact Or.inr rfl
    · intro hbody
      have := congrArg String.data hbody
      simp at this
    · simp only [List.mem_cons, List.mem_singleton, List.not_mem_nil, or_false] at he ⊢
      rcases he with h | h | h | h | h | h <;> subst h <;> simp
    · rcases htail with h | ⟨t, ht, _⟩
      · subst h; exact Or.inl rfl
      · subst ht; exact Or.inr ⟨⟨t⟩, rfl⟩
    · rw [hthumb]
      intro c hc
      have hc' : c ∈ m := hc
      rw [hshape] at hc'
      simp only [List.mem_append, List.mem_cons] at hc'
      have hext : ∀ x ∈ e, reSpace x = false := by
        simp only [List.mem_cons, List.mem_singleton, List.not_mem_nil, or_false] at he
        rcases he with h | h | h | h | h | h <;> subst h <;> decide
      have hlit1 : ∀ x ∈ "http".data, reSpace x = false := by decide
      have hlit2 : ∀ x ∈ "://".data, reSpace x = false := by decide
      rcases hc' with ((((h | h) | h) | h | h) | h | h) | h
      · exact hlit1 c (by simpa using h)
      · rcases hsch with hh | hh <;> subst hh
        · simp at h
        · simp at h; subst h; decide
      · exact hlit2 c (by simpa using h)
      · subst h; exact hns _ hb0
      · exact hns _ (hbs c h)
      · subst h; decide
      · exact hext c h
      · rcases htail with ht | ⟨t, ht, hall⟩
        · subst ht; simp at h
        · subst ht
          rcases List.mem_cons.1 h with h2 | h2
          · subst h2; decide
          · exact hns _ (hall c h2)

/-- Witness for C16 (amended): a thumbnail with a path after the extension. -/
theorem Thumb_result_shape_witness :
    ∃ pre post scheme body ext tail : String,
      (noteOf "see https://example.com/pic.png/view now").Event.Content
        = pre ++ (noteOf "see https://example.com/pic.png/view now").Thumb ++ post
      ∧ (noteOf "see https://example.com/pic.png/view now").Thumb
        = scheme ++ "://" ++ body ++ "." ++ ext ++ tail
      ∧ (scheme = "http" ∨ scheme = "https") ∧ body ≠ ""
      ∧ ext ∈ ["png", "jpeg", "jpg", "gif", "bmp", "svg"]
      ∧ (tail = "" ∨ ∃ rest, tail = "/" ++ rest)
      ∧ ∀ c ∈ (noteOf "see https://example.com/pic.png/view now").Thumb.data, reSpace c = false :=
  Thumb_result_shape (noteOf "see https://example.com/pic.png/view now") (by decide)

/-! ## The title loop and the longest fitting run -/

theorem fieldsGo_nonempty (s : List Char) :
    ∀ cur : List Char, ∀ f ∈ fieldsGo cur s, f ≠ [] := by
  induction s with
  | nil =>
    intro cur f hf
    simp only [fieldsGo] at hf
    split at hf
    · simp at hf
    · rename_i hcur
      simp at hf
      subst hf
      simpa using hcur
  | cons c cs ih =>
    intro cur f hf
    simp only [fieldsGo] at hf
    split at hf
    · split at hf
      · exact ih [] f hf
      · rename_i hcur
        rcases List.mem_cons.1 hf with h | h
        · subst h; simpa using hcur
        · exact ih [] f h
    · exact ih (c :: cur) f hf

theorem Fields_nonempty (s : String) : ∀ w ∈ Fields s, w ≠ "" := by
  intro w hw
  simp only [Fields, List.mem_map] at hw
  obtain ⟨f, hf, rfl⟩ := hw
  intro he
  exact fieldsGo_nonempty s.data [] f hf (congrArg String.data he)

theorem Join_nil (sep : String) : Join [] sep = "" := rfl

theorem Join_singleton (w sep : String) : Join [w] sep = w := by
  simp [Join, List.intercalate]

theorem intercalate_concat (sep : List Char) (l : List (List Char)) (x : List Char)
    (hl : l ≠ []) : List.intercalate sep (l ++ [x]) = List.intercalate sep l ++ sep ++ x := by
  induction l with
  | nil => exact absurd rfl hl
  | cons a r ih =>
    cases r with
    | nil => simp [List.intercalate]
    | cons b r2 =>
      have := ih (by simp)
      simp only [List.intercalate, List.cons_append, List.intersperse, List.flatten_cons] at this ⊢
      have e : r2.append [x] = r2 ++ [x] := rfl
      rw [e, this]
      simp

theorem Join_concat (acc : List String) (w sep : String) (hacc : acc ≠ []) :
    Join (acc ++ [w]) sep = Join acc sep ++ sep ++ w := by
  apply String.ext
  simp only [Join, List.map_append, List.map_cons, List.map_nil, String.data_append]
  exact intercalate_concat _ _ _ (by simpa using hacc)

theorem Join_ne_empty (acc : List String) (sep : String) (hacc : acc ≠ [])
    (hne : ∀ w ∈ acc, w ≠ "") : Join acc sep ≠ "" := by
  cases acc with
  | nil => exact absurd rfl hacc
  | cons a r =>
    intro he
    have ha := hne a (by simp)
    have hd := congrArg String.data he
    cases r with
    | nil =>
      simp [Join, List.intercalate] at hd
      exact ha (String.ext hd)
    | cons b r2 =>
      simp [Join, List.intercalate, List.intersperse] at hd
      exact ha (String.ext hd.1)

theorem len_Join_concat (acc : List String) (w : String) (hacc : acc ≠ []) :
    len (Join (acc ++ [w]) " ") = len (Join acc " ") + 1 + len w := by
  rw [Join_concat acc w " " hacc, len_append, len_append, len_space]

theorem len_Join_take_mono (words : List String) (k : Nat) :
    len (Join (words.take k) " ") ≤ len (Join (words.take (k + 1)) " ") := by
  by_cases hk : k < words.length
  · rw [List.take_succ, List.getElem?_eq_getElem hk]
    simp only [Option.toList_some]
    by_cases h0 : words.take k = []
    · rw [h0]
      simp [Join_nil, len_empty]
    · rw [len_Join_concat _ _ h0]
      omega
  · rw [List.take_of_length_le (by omega), List.take_of_length_le (by omega)]

theorem len_Join_take_le (words : List String) (k j : Nat) (h : k ≤ j) :
    len (Join (words.take k) " ") ≤ len (Join (words.take j) " ") := by
  induction j with
  | zero =>
    have : k = 0 := by omega
    rw [this]
  | succ j ih =>
    by_cases hk : k = j + 1
    · rw [hk]
    · exact le_trans (ih (by omega)) (len_Join_take_mono words j)

theorem find_last_range (p : Nat → Bool) (n : Nat) :
    ∀ m, m ≤ n → p m = true → (∀ k, m < k → k ≤ n → p k = false) →
      (List.range (n + 1)).reverse.find? p = some m := by
  induction n with
  | zero =>
    intro m hm hp _
    have : m = 0 := by omega
    subst this
    have e : (List.range (0 + 1)).reverse = [0] := rfl
    rw [e]
    simp [hp]
  | succ n ih =>
    intro m hm hp hover
    rw [List.range_succ, List.reverse_append]
    simp only [List.reverse_cons, List.reverse_nil, List.nil_append, List.singleton_append,
      List.find?_cons]
    by_cases hmn : m = n + 1
    · subst hmn
      simp [hp]
    · rw [hover (n + 1) (by omega) (le_refl _)]
      exact ih m (by omega) hp (fun k h1 h2 => hover k h1 (by omega))

theorem specLongestRun_eq (budget : Nat) (words : List String) (m : Nat)
    (hm : m ≤ words.length) (hfit : len (Join (words.take m) " ") ≤ budget)
    (hover : ∀ k, m < k → k ≤ words.length → budget < len (Join (words.take k) " ")) :
    specLongestRun budget words = words.take m := by
  unfold specLongestRun
  rw [find_last_range _ words.length m hm (by simpa using hfit)
    (fun k h1 h2 => by simpa using hover k h1 h2)]

theorem specLongestRun_fits (budget : Nat) (words : List String) :
    len (Join (specLongestRun budget words) " ") ≤ budget := by
  unfold specLongestRun
  split
  · rename_i k hk
    simpa using List.find?_some hk
  · simp [Join_nil, len_empty]

theorem take_length_succ_append (acc : List String) (w : String) (ws : List String) :
    (acc ++ w :: ws).take (acc.length + 1) = acc ++ [w] := by
  induction acc with
  | nil => simp
  | cons a r ih => simpa using ih

theorem take_length_append (acc rest : List String) :
    (acc ++ rest).take acc.length = acc := by
  simp

theorem titleLoop_accept (i : Nat) (w : String) (ws : List String) (title : String)
    (h : len title + len w + 1 ≤ 65) :
    titleLoop i (w :: ws) title
      = titleLoop (i + 1) ws ((if title ≠ "" then title ++ " " else title) ++ w) := by
  rw [titleLoop, if_pos h]

theorem titleLoop_reject (i : Nat) (w : String) (ws : List String) (title : String)
    (h : ¬ len title + len w + 1 ≤ 65) :
    titleLoop i (w :: ws) title = if i > 1 then title ++ " ..." else "" := by
  rw [titleLoop, if_neg h]

theorem titleLoop_run (rest : List String) :
    ∀ acc : List String, 2 ≤ acc.length → Join acc " " ≠ "" → len (Join acc " ") ≤ 65 →
      titleLoop acc.length rest (Join acc " ")
        = if specLongestRun 65 (acc ++ rest) = acc ++ rest then Join (acc ++ rest) " "
          else Join (specLongestRun 65 (acc ++ rest)) " " ++ " ..." := by
  induction rest with
  | nil =>
    intro acc _ _ hfit
    have hrun : specLongestRun 65 (acc ++ []) = acc ++ [] := by
      have := specLongestRun_eq 65 (acc ++ []) (acc ++ []).length (le_refl _)
        (by simpa using hfit) (fun k h1 h2 => absurd h2 (by omega))
      simpa using this
    rw [if_pos hrun]
    simp [titleLoop]
  | cons w ws ih =>
    intro acc h2 hne hfit
    have hacc : acc ≠ [] := by
      intro he
      rw [he] at h2
      simp at h2
    by_cases hc : len (Join acc " ") + len w + 1 ≤ 65
    · rw [titleLoop_accept _ _ _ _ hc, if_pos hne]
      have hjoin : Join acc " " ++ " " ++ w = Join (acc ++ [w]) " " :=
        (Join_concat acc w " " hacc).symm
      rw [hjoin]
      have hlen : (acc ++ [w]).length = acc.length + 1 := by simp
      rw [← hlen]
      have hstep := ih (acc ++ [w]) (by rw [hlen]; omega)
        (by
          rw [← hjoin]
          intro he
          have := congrArg String.data he
          simp at this)
        (by rw [len_Join_concat acc w hacc]; omega)
      rw [hstep]
      simp
    · rw [titleLoop_reject _ _ _ _ hc, if_pos (by omega)]
      have hrun : specLongestRun 65 (acc ++ w :: ws) = acc := by
        have := specLongestRun_eq 65 (acc ++ w :: ws) acc.length (by simp)
          (by rw [take_length_append]; exact hfit)
          (by
            intro k h1 _
            have hmono := len_Join_take_le (acc ++ w :: ws) (acc.length + 1) k (by omega)
            rw [take_length_succ_append, len_Join_concat acc w hacc] at hmono
            omega)
        rw [this, take_length_append]
      have hneq : acc ≠ acc ++ w :: ws := by
        intro he
        have := congrArg List.length he
        simp at this
      rw [hrun, if_neg hneq]

theorem titleLoop_two (w0 w1 : String) (rest : List String) (h0 : w0 ≠ "")
    (hfit : len w0 + 1 + len w1 ≤ 65) :
    titleLoop 0 (w0 :: w1 :: rest) ""
      = if specLongestRun 65 (w0 :: w1 :: rest) = w0 :: w1 :: rest
          then Join (w0 :: w1 :: rest) " "
        else Join (specLongestRun 65 (w0 :: w1 :: rest)) " " ++ " ..." := by
  have hj1 : Join [w0] " " = w0 := Join_singleton w0 " "
  have hj2 : Join [w0, w1] " " = w0 ++ " " ++ w1 := by
    have := Join_concat [w0] w1 " " (by simp)
    rw [hj1] at this
    simpa using this
  have hrun := titleLoop_run rest [w0, w1] (by simp)
    (by
      rw [hj2]
      intro he
      have := congrArg String.data he
      simp at this)
    (by rw [hj2, len_append, len_append, len_space]; omega)
  simp only [List.length_cons, List.length_nil, List.cons_append, List.nil_append] at hrun
  rw [hj2] at hrun
  rw [← hrun]
  have e1 : ("" : String) ++ w0 = w0 := by
    apply String.ext; simp
  rw [titleLoop_accept 0 w0 _ "" (by rw [len_empty]; omega), if_neg (by simp), e1,
    titleLoop_accept 1 w1 _ w0 (by omega), if_pos h0]

theorem titleLoop_one (w : String) (hfit : len w ≤ 64) :
    titleLoop 0 [w] "" = w ∧ specLongestRun 65 [w] = [w] := by
  constructor
  · have e1 : ("" : String) ++ w = w := by
      apply String.ext; simp
    rw [titleLoop_accept 0 w _ "" (by rw [len_empty]; omega), if_neg (by simp), e1]
    rfl
  · have := specLongestRun_eq 65 [w] 1 (by simp)
      (by simp only [List.take_succ_cons, List.take_zero]; rw [Join_singleton]; omega)
      (fun k h1 h2 => by simp at h2; omega)
    simpa using this

theorem titleLoop_first_too_long (w : String) (rest : List String) (hlong : 65 ≤ len w) :
    titleLoop 0 (w :: rest) "" = "" := by
  rw [titleLoop_reject 0 w _ "" (by rw [len_empty]; omega), if_neg (by omega)]

theorem specLongestRun_length_ge (budget : Nat) (words : List String) (k : Nat)
    (hk : k ≤ words.length) (hfit : len (Join (words.take k) " ") ≤ budget) :
    ∃ m, k ≤ m ∧ m ≤ words.length ∧ specLongestRun budget words = words.take m := by
  let P : Nat → Prop := fun j => len (Join (words.take j) " ") ≤ budget
  have hP : P k := hfit
  refine ⟨Nat.findGreatest P words.length, Nat.le_findGreatest hk hP,
    Nat.findGreatest_le _, ?_⟩
  apply specLongestRun_eq budget words _ (Nat.findGreatest_le _)
  · exact Nat.findGreatest_spec hk hP
  · intro j h1 h2
    have := Nat.findGreatest_is_greatest h1 h2
    exact Nat.lt_of_not_le this

theorem specLongestRun_join_ne_empty (words : List String) (k : Nat) (hk0 : 0 < k)
    (hk : k ≤ words.length) (hfit : len (Join (words.take k) " ") ≤ 65)
    (hne : ∀ w ∈ words, w ≠ "") : Join (specLongestRun 65 words) " " ≠ "" := by
  obtain ⟨m, hkm, hm, hrun⟩ := specLongestRun_length_ge 65 words k hk hfit
  rw [hrun]
  apply Join_ne_empty
  · intro he
    have := congrArg List.length he
    rw [List.length_take, List.length_nil] at this
    omega
  · intro w hw
    exact hne w (List.mem_of_mem_take hw)

theorem candidateTitle_two_words (h : Helpers) (ee : EnhancedEvent) (w0 w1 : String)
    (rest : List String) (hw : ee.titleWords h = w0 :: w1 :: rest)
    (hfit : len w0 + 1 + len w1 ≤ 65) :
    ee.candidateTitle h
        = (if specLongestRun 65 (w0 :: w1 :: rest) = w0 :: w1 :: rest
            then Join (w0 :: w1 :: rest) " "
           else Join (specLongestRun 65 (w0 :: w1 :: rest)) " " ++ " ...")
      ∧ Join (specLongestRun 65 (w0 :: w1 :: rest)) " " ≠ "" := by
  have hcand : ee.candidateTitle h = titleLoop 0 (w0 :: w1 :: rest) "" := by rw [← hw]; rfl
  have hne : ∀ w ∈ w0 :: w1 :: rest, w ≠ "" := by
    rw [← hw]
    exact Fields_nonempty _
  have h0 : w0 ≠ "" := hne w0 (by simp)
  refine ⟨by rw [hcand]; exact titleLoop_two w0 w1 rest h0 hfit, ?_⟩
  apply specLongestRun_join_ne_empty (w0 :: w1 :: rest) 2 (by omega) (by simp) _ hne
  have hj1 : Join [w0] " " = w0 := Join_singleton w0 " "
  have hj2 := Join_concat [w0] w1 " " (by simp)
  rw [hj1] at hj2
  simp only [List.take_succ_cons, List.take_zero]
  simp only [List.cons_append, List.nil_append] at hj2
  rw [hj2, len_append, len_append, len_space]
  omega

/-! ## The candidate title -/

set_option maxRecDepth 100000 in
/-- C11 (counterexample): the budget is counted in bytes.  A single word of 40
letters `é` has 40 characters, within 65, but 80 bytes: the candidate title is
empty although there is a word and it is not longer than 65 characters. -/
theorem candidateTitle_counts_bytes :
    (noteOf "éééééééééééééééééééééééééééééééééééééééé").titleWords idHelpers
      = ["éééééééééééééééééééééééééééééééééééééééé"]
    ∧ ("éééééééééééééééééééééééééééééééééééééééé" : String).length = 40
    ∧ (noteOf "éééééééééééééééééééééééééééééééééééééééé").candidateTitle idHelpers = "" := by
  decide

/-- C11 (amended): lengths are byte lengths.  When there is no word, one word of
at most 64 bytes, or several words of which the first two joined by a space
take at most 65 bytes, the candidate title is the single-space join of the
longest leading run of words whose join takes at most 65 bytes, followed by
" ..." exactly when the run leaves words out; the join is empty only when
there is no word.  When the first word alone is longer than 65 bytes the
candidate title is empty. -/
theorem candidateTitle_longest_run (h : Helpers) (ee : EnhancedEvent) (words : List String)
    (hwords : words = ee.titleWords h) :
    (words = [] → ee.candidateTitle h = "")
    ∧ ((∃ w, words = [w] ∧ len w ≤ 64)
        ∨ (∃ w0 w1 rest, words = w0 :: w1 :: rest ∧ len w0 + 1 + len w1 ≤ 65) →
        ee.candidateTitle h
            = (if specLongestRun 65 words = words then Join words " "
               else Join (specLongestRun 65 words) " " ++ " ...")
          ∧ Join (specLongestRun 65 words) " " ≠ "")
    ∧ (∀ w rest, words = w :: rest → 65 < len w → ee.candidateTitle h = "") := by
  have hcand : ee.candidateTitle h = titleLoop 0 words "" := by rw [hwords]; rfl
  have hne : ∀ w ∈ words, w ≠ "" := by
    rw [hwords]
    exact Fields_nonempty _
  refine ⟨?_, ?_, ?_⟩
  · intro he
    rw [hcand, he]
    rfl
  · rintro (⟨w, hw, hfit⟩ | ⟨w0, w1, rest, hw, hfit⟩)
    · obtain ⟨h1, h2⟩ := titleLoop_one w hfit
      rw [hcand, hw, h2, if_pos rfl, h1, Join_singleton]
      refine ⟨rfl, ?_⟩
      exact hne w (by rw [hw]; simp)
    · subst hw
      exact candidateTitle_two_words h ee w0 w1 rest hwords.symm hfit
  · intro w rest hw hlong
    rw [hcand, hw]
    exact titleLoop_first_too_long w rest (by omega)

set_option maxRecDepth 100000 in
/-- Witness for C11 (amended): a note whose first words fit and whose last do not. -/
theorem candidateTitle_longest_run_witness :
    (noteOf "one two three four five six seven eight nine ten eleven twelve thirteen fourteen").candidateTitle
        idHelpers
      = (if specLongestRun 65
            ["one", "two", "three", "four", "five", "six", "seven", "eight", "nine", "ten",
              "eleven", "twelve", "thirteen", "fourteen"]
          = ["one", "two", "three", "four", "five", "six", "seven", "eight", "nine", "ten",
              "eleven", "twelve", "thirteen", "fourteen"]
        then Join ["one", "two", "three", "four", "five", "six", "seven", "eight", "nine", "ten",
              "eleven", "twelve", "thirteen", "fourteen"] " "
        else Join (specLongestRun 65
            ["one", "two", "three", "four", "five", "six", "seven", "eight", "nine", "ten",
              "eleven", "twelve", "thirteen", "fourteen"]) " " ++ " ...") :=
  ((candidateTitle_longest_run idHelpers
    (noteOf "one two three four five six seven eight nine ten eleven twelve thirteen fourteen")
    ["one", "two", "three", "four", "five", "six", "seven", "eight", "nine", "ten",
      "eleven", "twelve", "thirteen", "fourteen"] (by decide)).2.1
    (Or.inr ⟨"one", "two", ["three", "four", "five", "six", "seven", "eight", "nine", "ten",
      "eleven", "twelve", "thirteen", "fourteen"], rfl, by decide⟩)).1

/-! ## Truncated titles -/

set_option maxRecDepth 100000 in
/-- C12 (counterexample): a preview made of one word of 70 letters is longer than
65 characters and lies at distance 70 from the feed content, yet the title is
empty: the first word alone exceeds the budget. -/
theorem RssTitle_single_long_word :
    65 < ((noteOf "xxxxxxxxxxxxxxxxxxxxxxxxxxxxxxxxxxxxxxxxxxxxxxxxxxxxxxxxxxxxxxxxxxxxxx").titleText
        idHelpers).length
    ∧ (noteOf "xxxxxxxxxxxxxxxxxxxxxxxxxxxxxxxxxxxxxxxxxxxxxxxxxxxxxxxxxxxxxxxxxxxxxx").RssContent
        sampleNip19 idHelpers
      = some "xxxxxxxxxxxxxxxxxxxxxxxxxxxxxxxxxxxxxxxxxxxxxxxxxxxxxxxxxxxxxxxxxxxxxx"
    ∧ 5 < DistanceForStrings
        ((noteOf "xxxxxxxxxxxxxxxxxxxxxxxxxxxxxxxxxxxxxxxxxxxxxxxxxxxxxxxxxxxxxxxxxxxxxx").candidateTitle
          idHelpers).data
        "xxxxxxxxxxxxxxxxxxxxxxxxxxxxxxxxxxxxxxxxxxxxxxxxxxxxxxxxxxxxxxxxxxxxxx".data
    ∧ (noteOf "xxxxxxxxxxxxxxxxxxxxxxxxxxxxxxxxxxxxxxxxxxxxxxxxxxxxxxxxxxxxxxxxxxxxxx").RssTitle
        sampleNip19 idHelpers = some "" := by
  decide

/-- C12 (amended): when the first two words fit the budget of 65 bytes but the
words do not all fit, and the candidate title is at an edit distance above 5
from the feed content, `RssTitle` returns the join of the longest fitting run,
which is not empty, followed by the marker " ...". -/
theorem RssTitle_truncated (lib : Nip19) (h : Helpers) (ee : EnhancedEvent)
    (w0 w1 : String) (rest : List String) (content : String)
    (hwords : ee.titleWords h = w0 :: w1 :: rest)
    (hfit : len w0 + 1 + len w1 ≤ 65)
    (hlong : 65 < len (Join (w0 :: w1 :: rest) " "))
    (hcontent : ee.RssContent lib h = some content)
    (hdist : 5 < DistanceForStrings (ee.candidateTitle h).data content.data) :
    ee.RssTitle lib h = some (Join (specLongestRun 65 (w0 :: w1 :: rest)) " " ++ " ...")
    ∧ Join (specLongestRun 65 (w0 :: w1 :: rest)) " " ≠ ""
    ∧ ee.RssTitle lib h ≠ some "" := by
  obtain ⟨hcand, hne⟩ := candidateTitle_two_words h ee w0 w1 rest hwords hfit
  have hrun : specLongestRun 65 (w0 :: w1 :: rest) ≠ w0 :: w1 :: rest := by
    intro he
    have := specLongestRun_fits 65 (w0 :: w1 :: rest)
    rw [he] at this
    omega
  rw [if_neg hrun] at hcand
  have hres : ee.RssTitle lib h
      = some (Join (specLongestRun 65 (w0 :: w1 :: rest)) " " ++ " ...") := by
    rw [RssTitle_cases lib h ee content hcontent, if_neg (by omega), hcand]
  refine ⟨hres, hne, ?_⟩
  rw [hres]
  intro he
  have := congrArg String.data (Option.some.inj he)
  simp at this

set_option maxRecDepth 100000 in
/-- Witness for C12 (amended): a long note of short words. -/
theorem RssTitle_truncated_witness :
    (noteOf "one two three four five six seven eight nine ten eleven twelve thirteen fourteen").RssTitle
        sampleNip19 idHelpers
      = some (Join (specLongestRun 65
          ["one", "two", "three", "four", "five", "six", "seven", "eight", "nine", "ten",
            "eleven", "twelve", "thirteen", "fourteen"]) " " ++ " ...") :=
  (RssTitle_truncated sampleNip19 idHelpers
    (noteOf "one two three four five six seven eight nine ten eleven twelve thirteen fourteen")
    "one" "two" ["three", "four", "five", "six", "seven", "eight", "nine", "ten",
      "eleven", "twelve", "thirteen", "fourteen"]
    "one two three four five six seven eight nine ten eleven twelve thirteen fourteen"
    (by decide) (by decide) (by decide) (by decide) (by decide)).1

/-! ## Quote embedding -/

theorem renderQuotesBounded_unresolved (src : QuoteSource) (content : String)
    (hmiss : ∀ p, Piece.quote p ∈ src.pieces content → src.lookup p = none) (depth : Nat) :
    renderQuotesBounded src depth content = renderQuotesBounded src 0 content := by
  cases depth with
  | zero => rfl
  | succ d =>
    simp only [renderQuotesBounded]
    congr 1
    apply List.map_congr_left
    intro piece hpiece
    cases piece with
    | text s => rfl
    | quote p => simp [hmiss p hpiece]

theorem renderQuotesBounded_self (src : QuoteSource) (c p : String) (ev : Event)
    (hpieces : src.pieces c = [.quote p]) (hlookup : src.lookup p = some ev)
    (hself : ev.Content = c) (depth : Nat) :
    renderQuotesBounded src depth c = src.blockquote^[depth] (src.fallbackLink p) := by
  induction depth with
  | zero => simp [renderQuotesBounded, hpieces, String.join]
  | succ d ih =>
    rw [Function.iterate_succ_apply', ← ih]
    simp [renderQuotesBounded, hpieces, hlookup, hself, String.join]

/-- C15: with the quote embedding of the spec, bounded by the configured depth,
`RssContent` returns whenever the parent pointer can be displayed, whatever
the quoted events are.  Quotes at the depth limit and quotes whose lookup
misses are rendered as the plain fallback link; a content that quotes itself
is rendered as `depth` nested block quotes around the fallback link. -/
theorem RssContent_quotes_bounded (lib : Nip19) (h : Helpers) (src : QuoteSource)
    (ee : EnhancedEvent) :
    (∀ p, ee.getParentNevent lib = some p → (p = "" ∨ 8 ≤ len p) →
        ∃ out, ee.RssContent lib (withBoundedQuotes src h) = some out)
    ∧ (ee.getParentNevent lib = some "" →
        ee.RssContent lib (withBoundedQuotes src h) = some (renderQuotesBounded src src.maxDepth
          (h.basicFormatting (EscapeString ee.Event.Content) true false false)))
    ∧ (∀ content, renderQuotesBounded src 0 content
        = String.join ((src.pieces content).map fun piece =>
            match piece with
            | .text s => s
            | .quote p => src.fallbackLink p))
    ∧ (∀ content depth, (∀ p, Piece.quote p ∈ src.pieces content → src.lookup p = none) →
        renderQuotesBounded src depth content
          = String.join ((src.pieces content).map fun piece =>
              match piece with
              | .text s => s
              | .quote p => src.fallbackLink p))
    ∧ (∀ c p ev depth, src.pieces c = [.quote p] → src.lookup p = some ev → ev.Content = c →
        renderQuotesBounded src depth c = src.blockquote^[depth] (src.fallbackLink p)) := by
  refine ⟨?_, ?_, ?_, ?_, ?_⟩
  · intro p hp hcase
    rcases hcase with he | h8
    · subst he
      refine ⟨(withBoundedQuotes src h).renderQuotesAsHTML
        ((withBoundedQuotes src h).basicFormatting (EscapeString ee.Event.Content)
          true false false) false, ?_⟩
      simp [EnhancedEvent.RssContent, hp]
    · exact ⟨_, RssContent_of_parent lib (withBoundedQuotes src h) ee p hp h8⟩
  · intro hp
    simp [EnhancedEvent.RssContent, hp, withBoundedQuotes]
  · intro content
    rfl
  · intro content depth hmiss
    rw [renderQuotesBounded_unresolved src content hmiss depth]
    rfl
  · intro c p ev depth hpieces hlookup hself
    exact renderQuotesBounded_self src c p ev hpieces hlookup hself depth

set_option maxRecDepth 100000 in
/-- Witness for C15: a note that quotes itself, rendered with depth 3. -/
theorem RssContent_quotes_bounded_witness :
    (noteOf "nostr:nevent1self").RssContent sampleNip19 (withBoundedQuotes selfQuoting idHelpers)
      = some ("<blockquote><blockquote><blockquote>"
          ++ "<a href=\x27/nevent1self\x27>nevent1self</a>"
          ++ "</blockquote></blockquote></blockquote>") := by
  rw [(RssContent_quotes_bounded sampleNip19 idHelpers selfQuoting
    (noteOf "nostr:nevent1self")).2.1 (by decide)]
  decide

end Njump
